import Mathlib

/-!
Verification of the TVM Relay ONNX frontend importer
(`python/tvm/relay/frontend/onnx.py`) against its natural-language
specification, via a shallow embedding of the importer's data model and
algorithms.  Each Python construct used by the claims is translated into an
executable Lean definition; theorems about those definitions settle the
claims.

Conventions of the embedding:
* Python dicts are association lists with Python-dict semantics
  (insertion order preserved, assignment to an existing key keeps its
  position, `update` merges in iteration order).
* Python exceptions are `Except` errors.
* Relay expressions are a small first-order term language `Expr`; relay
  helpers that are external to this file (`infer_shape`, `fold_constant`)
  are modeled as explicit oracle parameters or as the identity pass, as
  noted at their use sites.
-/

/-- Decidable equality for `Except` values, used to evaluate the embedded
functions on concrete inputs. -/
instance exceptDecEq {e a : Type} [DecidableEq e] [DecidableEq a] : DecidableEq (Except e a)
  | .ok x, .ok y => decidable_of_iff (x = y) (by simp)
  | .error x, .error y => decidable_of_iff (x = y) (by simp)
  | .ok _, .error _ => isFalse (by simp)
  | .error _, .ok _ => isFalse (by simp)

/-! ## Versioned operator registry: `OnnxOpConverter.get_converter`
(onnx.py lines 220-241).

The Python code is
```
versions = [int(d.replace("_impl_v", "")) for d in dir(cls) if "_impl_v" in d]
versions = sorted(versions + [opset])
version = versions[max([i for i, v in enumerate(versions) if v == opset]) - 1]
if hasattr(cls, "_impl_v{}".format(version)): return getattr(...)
raise NotImplementedError(...)
```
`registered` stands for the list of minimum versions carried by the
`_impl_v*` class attributes; `hasattr(cls, "_impl_v{v}")` holds exactly when
`v ∈ registered`.  Note the Python negative-index wraparound: when the
requested opset sorts strictly below every registered version, the index
expression evaluates to `-1` and `versions[-1]` is the *last* (largest)
element. -/
def get_converter (registered : List Nat) (opset : Nat) : Except String Nat :=
  let versions := (registered ++ [opset]).insertionSort (· ≤ ·)
  let occ := (List.range versions.length).filter (fun i => decide (versions.getD i 0 = opset))
  let mx := occ.foldl max 0
  let version := if mx = 0 then versions.getLastD 0 else versions.getD (mx - 1) 0
  if version ∈ registered then Except.ok version
  else Except.error "opset version not implemented"

/-! Supporting list lemmas for the registry proof. -/

theorem foldl_max_aux :
    ∀ (l : List Nat) (a m : Nat), a ≤ m → (m ∈ l ∨ a = m) → (∀ x ∈ l, x ≤ m) →
      l.foldl max a = m := by
  intro l
  induction l with
  | nil =>
    intro a m _ hmem _
    rcases hmem with h | rfl
    · simp at h
    · rfl
  | cons b t ih =>
    intro a m ha hmem hall
    simp only [List.foldl_cons]
    have hb : b ≤ m := hall b (by simp)
    rcases hmem with h | rfl
    · rcases List.mem_cons.mp h with rfl | ht
      · exact ih (max a m) m (by simp [ha]) (Or.inr (Nat.max_eq_right ha))
          (fun x hx => hall x (List.mem_cons_of_mem m hx))
      · exact ih (max a b) m (by simp [ha, hb]) (Or.inl ht)
          (fun x hx => hall x (List.mem_cons_of_mem b hx))
    · exact ih (max a b) a (by simp [hb]) (Or.inr (Nat.max_eq_left hb))
        (fun x hx => hall x (List.mem_cons_of_mem b hx))

theorem foldl_max_eq {l : List Nat} {m : Nat} (hm : m ∈ l) (hall : ∀ x ∈ l, x ≤ m) :
    l.foldl max 0 = m :=
  foldl_max_aux l 0 m (Nat.zero_le m) (Or.inl hm) hall

theorem sorted_le_getLast :
    ∀ {l : List Nat}, List.Sorted (· ≤ ·) l → ∀ (hne : l ≠ []) (x : Nat), x ∈ l →
      x ≤ l.getLast hne := by
  intro l
  induction l with
  | nil => intro _ h; simp at h
  | cons a t ih =>
    intro hs hne x hx
    rcases List.sorted_cons.mp hs with ⟨hat, hst⟩
    cases t with
    | nil =>
      simp only [List.mem_singleton] at hx
      simp [hx, List.getLast]
    | cons b t2 =>
      rw [List.getLast_cons (by simp)]
      rcases List.mem_cons.mp hx with rfl | hxt
      · exact le_trans (hat b (by simp)) (ih hst (by simp) b (by simp))
      · exact ih hst (by simp) x hxt

theorem sorted_dropWhile_gt {l : List Nat} (c : Nat) (hs : List.Sorted (· ≤ ·) l) :
    ∀ x ∈ l.dropWhile (fun v => decide (v ≤ c)), c < x := by
  induction l with
  | nil => simp
  | cons a t ih =>
    rcases List.sorted_cons.mp hs with ⟨hat, hst⟩
    intro x hx
    by_cases hac : a ≤ c
    · rw [List.dropWhile_cons_of_pos (by simpa using hac)] at hx
      exact ih hst x hx
    · rw [List.dropWhile_cons_of_neg (by simpa using hac)] at hx
      push_neg at hac
      rcases List.mem_cons.mp hx with rfl | hxt
      · exact hac
      · exact lt_of_lt_of_le hac (hat x hxt)

/-- Core characterization of `get_converter`: it always succeeds for a
nonempty registry, returning the largest registered version `≤ opset` when
one exists, and otherwise (requested opset below every registered version)
the largest registered version overall, due to Python's negative-index
wraparound at `versions[-1]`. -/
theorem get_converter_spec (registered : List Nat) (opset : Nat) (hne : registered ≠ []) :
    ∃ m, get_converter registered opset = Except.ok m ∧ m ∈ registered ∧
      ((∃ v ∈ registered, v ≤ opset) → m ≤ opset ∧ ∀ v ∈ registered, v ≤ opset → v ≤ m) ∧
      ((∀ v ∈ registered, opset < v) → ∀ v ∈ registered, v ≤ m) := by
  classical
  unfold get_converter
  set p : Nat → Bool := fun v => decide (v ≤ opset) with hp
  set L := (registered ++ [opset]).insertionSort (· ≤ ·) with hLdef
  have hperm : L.Perm (registered ++ [opset]) := List.perm_insertionSort _ _
  have hsorted : List.Sorted (· ≤ ·) L := List.sorted_insertionSort _ _
  set A := L.takeWhile p with hAdef
  set B := L.dropWhile p with hBdef
  have hAB : A ++ B = L := List.takeWhile_append_dropWhile p L
  have hA_all : ∀ x ∈ A, x ≤ opset := fun x hx => by
    have := List.mem_takeWhile_imp hx
    simpa [hp] using this
  have hB_all : ∀ x ∈ B, opset < x := by
    have := sorted_dropWhile_gt opset hsorted
    simpa [hBdef, hp] using this
  have hopsetL : opset ∈ L := hperm.mem_iff.mpr (by simp)
  have hopsetA : opset ∈ A := by
    rcases List.mem_append.mp (by rw [hAB]; exact hopsetL) with h | h
    · exact h
    · exact absurd (hB_all opset h) (lt_irrefl opset)
  have hAne : A ≠ [] := fun h => by simp [h] at hopsetA
  have hAsorted : List.Sorted (· ≤ ·) A :=
    List.Pairwise.sublist (hAB ▸ (List.sublist_append_left A B)) hsorted
  have hlastA : A.getLast hAne = opset :=
    le_antisymm (hA_all _ (List.getLast_mem hAne))
      (sorted_le_getLast hAsorted hAne opset hopsetA)
  have hAposlen : 1 ≤ A.length := List.length_pos.mpr hAne
  have hlenL : A.length + B.length = L.length := by
    rw [← hAB, List.length_append]
  -- the value at every in-range index below A.length is in A, at or above it is in B
  have hgetA : ∀ i, i < A.length → L.getD i 0 = A.getD i 0 := by
    intro i hi
    rw [← hAB]
    exact List.getD_append A B 0 i hi
  have hgetB : ∀ i, A.length ≤ i → i < L.length → opset < L.getD i 0 := by
    intro i hi hiL
    rw [← hAB, List.getD_append_right A B 0 i hi]
    have hlt : i - A.length < B.length := by omega
    rw [List.getD_eq_getElem B 0 hlt]
    exact hB_all _ (List.getElem_mem hlt)
  have hlastidx : L.getD (A.length - 1) 0 = opset := by
    rw [hgetA _ (by omega), List.getD_eq_getElem A 0 (by omega)]
    rw [← List.getLast_eq_getElem A hAne] at *
    exact hlastA
  -- the index list and its max
  have hocc_mem : (A.length - 1) ∈ (List.range L.length).filter
      (fun i => decide (L.getD i 0 = opset)) := by
    rw [List.mem_filter]
    constructor
    · rw [List.mem_range]; omega
    · simpa using hlastidx
  have hocc_le : ∀ i ∈ (List.range L.length).filter
      (fun i => decide (L.getD i 0 = opset)), i ≤ A.length - 1 := by
    intro i hi
    rw [List.mem_filter, List.mem_range] at hi
    rcases hi with ⟨hir, hiv⟩
    simp only [decide_eq_true_eq] at hiv
    by_contra hgt
    push_neg at hgt
    have : A.length ≤ i := by omega
    have := hgetB i this hir
    omega
  have hmx : ((List.range L.length).filter
      (fun i => decide (L.getD i 0 = opset))).foldl max 0 = A.length - 1 :=
    foldl_max_eq hocc_mem hocc_le
  dsimp only
  rw [hmx]
  -- case split on whether anything registered is ≤ opset
  by_cases hcase : A.length = 1
  · -- only the inserted copy of opset is ≤ opset: Python takes versions[-1]
    have hLne : L ≠ [] := by
      intro h
      rw [h] at hopsetL
      simp at hopsetL
    have hgetlastD : L.getLastD 0 = L.getLast hLne := by
      rw [List.getLastD_eq_getLast?, List.getLast?_eq_getLast L hLne]
      rfl
    have hMmem : L.getLast hLne ∈ L := List.getLast_mem hLne
    have hMtop : ∀ x ∈ L, x ≤ L.getLast hLne := sorted_le_getLast hsorted hLne
    have hcA : List.countP p A = A.length :=
      List.countP_eq_length.mpr (fun a ha => by simp [hp, hA_all a ha])
    have hcB : List.countP p B = 0 :=
      List.countP_eq_zero.mpr (fun x hx => by simp [hp]; exact hB_all x hx)
    have hcL : List.countP p L = 1 := by
      rw [← hAB, List.countP_append, hcA, hcB, hcase]
    have hcR : List.countP p registered = 0 := by
      have h1 := hperm.countP_eq p
      rw [hcL, List.countP_append] at h1
      have h2 : List.countP p [opset] = 1 := by simp [hp]
      omega
    have hRno : ∀ v ∈ registered, opset < v := by
      have := List.countP_eq_zero.mp hcR
      intro v hv
      have h := this v hv
      simp [hp] at h
      exact h
    have hMR : L.getLast hLne ∈ registered := by
      rcases List.mem_append.mp (hperm.mem_iff.mp hMmem) with h | h
      · exact h
      · simp only [List.mem_singleton] at h
        obtain ⟨v, hv⟩ := List.exists_mem_of_ne_nil registered hne
        have hvL : v ∈ L := hperm.mem_iff.mpr (List.mem_append_left _ hv)
        have h1 := hMtop v hvL
        have h2 := hRno v hv
        omega
    refine ⟨L.getLast hLne, ?_, hMR, ?_, ?_⟩
    · have h0 : A.length - 1 = 0 := by omega
      rw [h0, if_pos rfl, hgetlastD, if_pos hMR]
    · rintro ⟨v, hv, hvle⟩
      exact absurd hvle (not_le.mpr (hRno v hv))
    · intro _ v hv
      exact hMtop v (hperm.mem_iff.mpr (List.mem_append_left _ hv))
  · -- some registered version is ≤ opset: versions[mx - 1] is the largest such
    have hAposlen2 : 2 ≤ A.length := by omega
    have hDlen : A.dropLast.length = A.length - 1 := List.length_dropLast A
    have hDne : A.dropLast ≠ [] := by
      intro h
      rw [h] at hDlen
      simp at hDlen
      omega
    have hADa : A.dropLast ++ [opset] = A := by
      rw [← hlastA]
      exact List.dropLast_append_getLast hAne
    have hDsorted : List.Sorted (· ≤ ·) A.dropLast :=
      List.Pairwise.sublist (List.dropLast_sublist A) hAsorted
    have hMD : A.dropLast.getLast hDne ∈ A.dropLast := List.getLast_mem hDne
    have hDtop : ∀ x ∈ A.dropLast, x ≤ A.dropLast.getLast hDne :=
      sorted_le_getLast hDsorted hDne
    have hfAeq : List.filter p L = A := by
      rw [← hAB, List.filter_append,
        List.filter_eq_self.mpr (fun a ha => by simp [hp, hA_all a ha]),
        List.filter_eq_nil_iff.mpr (fun a ha => by simp [hp]; exact hB_all a ha),
        List.append_nil]
    have hfperm : A.Perm (List.filter p registered ++ [opset]) := by
      rw [← hfAeq]
      have h1 := hperm.filter p
      rw [List.filter_append] at h1
      have h2 : List.filter p [opset] = [opset] := by simp [hp]
      rw [h2] at h1
      exact h1
    have hDperm : A.dropLast.Perm (List.filter p registered) := by
      have h1 : (A.dropLast ++ [opset]).Perm (List.filter p registered ++ [opset]) := by
        rw [hADa]
        exact hfperm
      exact (List.perm_append_right_iff _).mp h1
    have hMfR : A.dropLast.getLast hDne ∈ List.filter p registered := hDperm.subset hMD
    have hMR : A.dropLast.getLast hDne ∈ registered := (List.mem_filter.mp hMfR).1
    have hMle : A.dropLast.getLast hDne ≤ opset := by
      have := (List.mem_filter.mp hMfR).2
      simpa [hp] using this
    have hmaximal : ∀ v ∈ registered, v ≤ opset → v ≤ A.dropLast.getLast hDne := by
      intro v hv hvle
      exact hDtop v (hDperm.mem_iff.mpr (List.mem_filter.mpr ⟨hv, by simp [hp, hvle]⟩))
    have h0 : ¬ (A.length - 1 = 0) := by omega
    have hvers : L.getD (A.length - 1 - 1) 0 = A.dropLast.getLast hDne := by
      rw [hgetA _ (by omega), List.getD_eq_getElem A 0 (by omega),
        List.getLast_eq_getElem A.dropLast hDne, List.getElem_dropLast]
      simp only [hDlen]
    refine ⟨A.dropLast.getLast hDne, ?_, hMR, ?_, ?_⟩
    · rw [if_neg h0, hvers, if_pos hMR]
    · intro _
      exact ⟨hMle, hmaximal⟩
    · intro hall
      exact absurd hMle (not_le.mpr (hall _ hMR))

/-- C1: for every operator converter with registered implementation versions
and every requested opset `r`, `get_converter` returns the implementation
tagged with the largest registered version `vi ≤ r` when such a version
exists; when `r` sorts below every registered version it does **not** fail:
Python's `versions[-1]` wraparound makes it return the implementation tagged
with the largest registered version.  It errors only when the class has no
`_impl_v*` attribute at all. -/
theorem C1_get_converter_resolution (registered : List Nat) (r : Nat)
    (hne : registered ≠ []) :
    ∃ m, get_converter registered r = Except.ok m ∧ m ∈ registered ∧
      ((∃ v ∈ registered, v ≤ r) → m ≤ r ∧ ∀ v ∈ registered, v ≤ r → v ≤ m) ∧
      ((∀ v ∈ registered, r < v) → ∀ v ∈ registered, v ≤ m) :=
  get_converter_spec registered r hne

/-- Witness for `C1_get_converter_resolution` at registry `[7, 9]`, requested
opset `8`: the hypothesis is discharged and the resolved version is `7`. -/
theorem C1_get_converter_resolution_witness :
    ([7, 9] : List Nat) ≠ [] ∧
      (∃ m, get_converter [7, 9] 8 = Except.ok m ∧ m ∈ [7, 9] ∧
        ((∃ v ∈ [7, 9], v ≤ 8) → m ≤ 8 ∧ ∀ v ∈ [7, 9], v ≤ 8 → v ≤ m) ∧
        ((∀ v ∈ [7, 9], 8 < v) → ∀ v ∈ [7, 9], v ≤ m)) :=
  ⟨by decide, C1_get_converter_resolution [7, 9] 8 (by decide)⟩

/-- C1 counterexample: the claim says resolution *fails* when the requested
version is below every registered version.  With only `_impl_v7` registered
and requested opset `1 < 7`, `get_converter` instead succeeds and returns
the version-7 implementation. -/
theorem C1_low_opset_counterexample :
    1 < 7 ∧ get_converter [7] 1 = Except.ok 7 := ⟨by decide, rfl⟩

/-! ## `onnx_input.__getitem__` (onnx.py lines 70-83).

```
class onnx_input(list):
    def __getitem__(self, item):
        if isinstance(item, slice):
            if item.stop is None: stop = len(self)
            else: stop = item.stop
            indices = list(range(stop)[item])
            return [self[i] for i in indices]
        if isinstance(item, int):
            return list(self)[item] if item < len(self) else None
        raise TypeError("list indices must be integers or slices, not %s" % ...)
```
-/

/-- Python runtime errors surfaced by the embedded fragments. -/
inductive PyErr where
  | typeError (msg : String)
  | indexError
  | valueError (msg : String)
  deriving Repr, DecidableEq

/-- A `__getitem__` key: an int, a slice object, or a value of any other
type (carrying its type name, used in the `TypeError` message). -/
inductive PyKey where
  | int (i : Int)
  | slice (start stop step : Option Int)
  | other (tname : String)
  deriving Repr, DecidableEq

/-- Ordinary Python list indexing `list(self)[i]`: negative indices count
from the end, out-of-range indices raise `IndexError`. -/
def pylist_get {α : Type} (l : List α) (i : Int) : Except PyErr α :=
  let j : Int := if i < 0 then i + l.length else i
  if h : 0 ≤ j ∧ j.toNat < l.length then Except.ok (l.get ⟨j.toNat, h.2⟩)
  else Except.error PyErr.indexError

/-- The elements of Python `range(n)` as integers. -/
def pyRangeList (n : Nat) : List Int := List.map (Nat.cast : Nat → Int) (List.range n)

/-- CPython slice-index adjustment (`PySlice_AdjustIndices`): for a sequence
of length `n` and slice `(start?, stop?, step?)`, the list of selected
indices.  A zero step raises `ValueError`. -/
def py_slice_indices (n : Nat) (start stop step : Option Int) :
    Except PyErr (List Int) :=
  let s : Int := step.getD 1
  if s = 0 then Except.error (PyErr.valueError "slice step cannot be zero")
  else if 0 < s then
    let lo : Int := match start with
      | none => 0
      | some a => if a < 0 then max (a + n) 0 else min a n
    let hi : Int := match stop with
      | none => n
      | some b => if b < 0 then max (b + n) 0 else min b n
    let cnt : Nat := if lo < hi then (((hi - lo - 1) / s) + 1).toNat else 0
    Except.ok ((pyRangeList cnt).map (fun k => lo + s * k))
  else
    let lo : Int := match start with
      | none => (n : Int) - 1
      | some a => if a < 0 then (if a + n < 0 then -1 else a + n) else min a ((n : Int) - 1)
    let hi : Int := match stop with
      | none => -1
      | some b => if b < 0 then (if b + n < 0 then -1 else b + n) else min b ((n : Int) - 1)
    let cnt : Nat := if hi < lo then (((lo - hi - 1) / (-s)) + 1).toNat else 0
    Except.ok ((pyRangeList cnt).map (fun k => lo + s * k))

/-- Result of `onnx_input.__getitem__`: a single (possibly absent) element
for an int key, a list of (possibly absent) elements for a slice key. -/
inductive GetItemRes (α : Type) where
  | single (v : Option α)
  | sliced (vs : List (Option α))
  deriving Repr, DecidableEq

/-- Model of `onnx_input.__getitem__`.  The slice branch materializes
`range(stop)[item]` (whose elements are the selected non-negative indices)
and re-enters the int branch for each selected index, exactly as the
Python list comprehension `[self[i] for i in indices]` does. -/
def onnx_input_getitem {α : Type} (l : List α) (item : PyKey) :
    Except PyErr (GetItemRes α) :=
  match item with
  | .slice start stop step =>
    let stopv : Int := match stop with
      | none => (l.length : Int)
      | some b => b
    let n : Nat := stopv.toNat
    match py_slice_indices n start stop step with
    | Except.error e => Except.error e
    | Except.ok idxs =>
      match idxs.mapM (fun i =>
          if i < (l.length : Int) then (pylist_get l i).map some
          else Except.ok none) with
      | Except.error e => Except.error e
      | Except.ok vs => Except.ok (GetItemRes.sliced vs)
  | .int i =>
    if i < (l.length : Int) then (pylist_get l i).map (fun v => GetItemRes.single (some v))
    else Except.ok (GetItemRes.single none)
  | .other tname =>
    Except.error (PyErr.typeError ("list indices must be integers or slices, not " ++ tname))

theorem exceptMapM_ok {eT aT bT : Type} (f : aT → Except eT bT) (g : aT → bT) :
    ∀ (xs : List aT), (∀ x ∈ xs, f x = Except.ok (g x)) →
      xs.mapM f = Except.ok (xs.map g) := by
  intro xs
  induction xs with
  | nil => intro _; rfl
  | cons a t ih =>
    intro h
    rw [List.mapM_cons, h a (by simp), ih (fun x hx => h x (by simp [hx]))]
    rfl

theorem pylist_get_nonneg {α : Type} (l : List α) (x : Int) (h0 : 0 ≤ x)
    (hk : x.toNat < l.length) :
    pylist_get l x = Except.ok (l.get ⟨x.toNat, hk⟩) := by
  simp only [pylist_get]
  have hcond : (if x < 0 then x + l.length else x) = x := if_neg (by omega)
  simp only [hcond]
  rw [dif_pos ⟨h0, hk⟩]

theorem pyRangeList_nonneg {n : Nat} {x : Int} (hx : x ∈ pyRangeList n) : 0 ≤ x := by
  unfold pyRangeList at hx
  rcases List.mem_map.mp hx with ⟨k, hk, hke⟩
  subst hke
  omega

theorem map_pyRangeList_getElem {α : Type} (l : List α) (n : Nat) :
    (pyRangeList n).map (fun i : Int => l[i.toNat]?) =
      (List.range n).map (fun k => l[k]?) := by
  unfold pyRangeList
  rw [List.map_map]
  apply List.map_congr_left
  intro k _
  simp

theorem py_slice_indices_default (b : Int) (hb0 : 0 < b) :
    py_slice_indices b.toNat none (some b) none = Except.ok (pyRangeList b.toNat) := by
  have hbn : ((b.toNat : Nat) : Int) = b := Int.toNat_of_nonneg (le_of_lt hb0)
  simp only [py_slice_indices, Option.getD, hbn]
  rw [if_neg (show ¬ (1 : Int) = 0 by omega)]
  rw [if_pos (show (0 : Int) < 1 by omega)]
  rw [if_neg (show ¬ b < 0 by omega)]
  rw [min_self]
  rw [if_pos (show (0 : Int) < b by omega)]
  have hcnt : ((b - 0 - 1) / 1 + 1).toNat = b.toNat := by omega
  rw [hcnt]
  congr 1
  simp

theorem onnx_getitem_elem {α : Type} (l : List α) (x : Int) (h0 : 0 ≤ x) :
    (if x < (l.length : Int) then (pylist_get l x).map some else Except.ok none)
      = Except.ok l[x.toNat]? := by
  by_cases hkl : x < (l.length : Int)
  · rw [if_pos hkl, pylist_get_nonneg l x h0 (by omega)]
    rw [List.getElem?_eq_getElem (show x.toNat < l.length by omega)]
    rfl
  · rw [if_neg hkl, List.getElem?_eq_none (show l.length ≤ x.toNat by omega)]

/-- C9: `onnx_input.__getitem__` behaviour.
(1) An int index at or past the length returns `None` rather than raising
`IndexError`; (2) a plain slice `[:b]` whose stop `b` exceeds the length
returns a list of length `b` whose entries past the end are `None`
(`l[k]?` is `none` there); (3) a key that is neither an int nor a slice
raises `TypeError`; (4) a negative int is not range-checked by the wrapper
and behaves as ordinary Python list indexing: from the end when
`-len ≤ i < 0`, `IndexError` when `i < -len`. -/
theorem C9_onnx_input_getitem {α : Type} :
    (∀ (l : List α) (i : Int), (l.length : Int) ≤ i →
      onnx_input_getitem l (PyKey.int i) = Except.ok (GetItemRes.single none)) ∧
    (∀ (l : List α) (b : Int), (l.length : Int) < b →
      onnx_input_getitem l (PyKey.slice none (some b) none) =
        Except.ok (GetItemRes.sliced ((List.range b.toNat).map (fun k => l[k]?)))) ∧
    (∀ (l : List α) (tname : String),
      onnx_input_getitem l (PyKey.other tname) =
        Except.error (PyErr.typeError
          ("list indices must be integers or slices, not " ++ tname))) ∧
    (∀ (l : List α) (i : Int), i < 0 →
      onnx_input_getitem l (PyKey.int i) =
          (pylist_get l i).map (fun v => GetItemRes.single (some v)) ∧
        (-(l.length : Int) ≤ i → ∃ h : (i + l.length).toNat < l.length,
          onnx_input_getitem l (PyKey.int i) =
            Except.ok (GetItemRes.single (some (l.get ⟨(i + l.length).toNat, h⟩)))) ∧
        (i < -(l.length : Int) →
          onnx_input_getitem l (PyKey.int i) = Except.error PyErr.indexError)) := by
  refine ⟨?_, ?_, ?_, ?_⟩
  · intro l i hi
    simp only [onnx_input_getitem]
    rw [if_neg (by omega)]
  · intro l b hb
    have hb0 : 0 < b := by omega
    simp only [onnx_input_getitem]
    rw [py_slice_indices_default b hb0]
    dsimp only
    rw [exceptMapM_ok _ (fun i : Int => l[i.toNat]?) _
      (fun x hx => onnx_getitem_elem l x (pyRangeList_nonneg hx))]
    dsimp only
    rw [map_pyRangeList_getElem]
  · intro l tname
    rfl
  · intro l i hneg
    have hlt : i < (l.length : Int) := by omega
    refine ⟨by simp only [onnx_input_getitem]; rw [if_pos hlt], ?_, ?_⟩
    · intro hge
      have hjlt : (i + l.length).toNat < l.length := by omega
      refine ⟨hjlt, ?_⟩
      simp only [onnx_input_getitem]
      rw [if_pos hlt]
      simp only [pylist_get]
      have hcond : (if i < 0 then i + l.length else i) = i + l.length := if_pos hneg
      simp only [hcond]
      rw [dif_pos (show (0 : Int) ≤ i + l.length ∧ (i + l.length).toNat < l.length from
        ⟨by omega, by omega⟩)]
      rfl
    · intro hlow
      simp only [onnx_input_getitem]
      rw [if_pos hlt]
      simp only [pylist_get]
      have hcond : (if i < 0 then i + l.length else i) = i + l.length := if_pos hneg
      simp only [hcond]
      rw [dif_neg (by omega)]
      rfl

/-- Witness for `C9_onnx_input_getitem` on the concrete list `[10, 20]`:
index `5` gives `None`; slice `[:4]` gives `[10, 20, None, None]`; a string
key raises `TypeError`; index `-1` gives the last element and index `-3`
raises `IndexError`. -/
theorem C9_onnx_input_getitem_witness :
    onnx_input_getitem ([10, 20] : List Nat) (PyKey.int 5) =
        Except.ok (GetItemRes.single none) ∧
      onnx_input_getitem ([10, 20] : List Nat) (PyKey.slice none (some 4) none) =
        Except.ok (GetItemRes.sliced [some 10, some 20, none, none]) ∧
      onnx_input_getitem ([10, 20] : List Nat) (PyKey.other "str") =
        Except.error (PyErr.typeError "list indices must be integers or slices, not str") ∧
      onnx_input_getitem ([10, 20] : List Nat) (PyKey.int (-1)) =
        Except.ok (GetItemRes.single (some 20)) ∧
      onnx_input_getitem ([10, 20] : List Nat) (PyKey.int (-3)) =
        Except.error PyErr.indexError := by
  have h := @C9_onnx_input_getitem Nat
  refine ⟨h.1 [10, 20] 5 (by decide), ?_, ?_, ?_, ?_⟩
  · have h2 := h.2.1 [10, 20] 4 (by decide)
    simpa using h2
  · exact h.2.2.1 [10, 20] "str"
  · have h4 := (h.2.2.2 [10, 20] (-1) (by decide)).2.1 (by decide)
    rcases h4 with ⟨hh, h4⟩
    simpa using h4
  · exact (h.2.2.2 [10, 20] (-3) (by decide)).2.2 (by decide)

/-! ## `GraphProto._fix_outputs` (onnx.py lines 4803-4812).

```
def _fix_outputs(self, op_name, outputs):
    if op_name == "Dropout":
        if len(outputs) == 1:
            return outputs
        outputs = outputs[:-1]
    return outputs
```
-/
def fix_outputs (op_name : String) (outputs : List String) : List String :=
  if op_name = "Dropout" then
    if outputs.length = 1 then outputs
    else outputs.dropLast
  else outputs

/-- C10: `_fix_outputs` removes the last declared output name of a Dropout
node declaring more than one output (so the mask name is never bound),
leaves single-output Dropout nodes unchanged, and leaves every other
operator's output list unchanged.  In `from_onnx` this runs on
`node.output` before output reconciliation (see `from_onnx_expr` below). -/
theorem C10_fix_outputs :
    (∀ outs : List String, 1 < outs.length →
      fix_outputs "Dropout" outs = outs.dropLast ∧
        (fix_outputs "Dropout" outs).length = outs.length - 1) ∧
    (∀ outs : List String, outs.length = 1 → fix_outputs "Dropout" outs = outs) ∧
    (∀ (op : String) (outs : List String), op ≠ "Dropout" →
      fix_outputs op outs = outs) := by
  refine ⟨?_, ?_, ?_⟩
  · intro outs houts
    have h1 : ¬ outs.length = 1 := by omega
    constructor
    · simp [fix_outputs, h1]
    · simp [fix_outputs, h1, List.length_dropLast]
  · intro outs houts
    simp [fix_outputs, houts]
  · intro op outs hop
    simp [fix_outputs, hop]

/-- Witness for `C10_fix_outputs`: Dropout with two declared outputs loses
the trailing mask name; Dropout with one output and a non-Dropout node are
unchanged. -/
theorem C10_fix_outputs_witness :
    fix_outputs "Dropout" ["y", "mask"] = ["y"] ∧
      fix_outputs "Dropout" ["y"] = ["y"] ∧
      fix_outputs "Relu" ["y", "z"] = ["y", "z"] := by
  have h := C10_fix_outputs
  exact ⟨(h.1 ["y", "mask"] (by decide)).1, h.2.1 ["y"] (by decide),
    h.2.2 "Relu" ["y", "z"] (by decide)⟩

/-! ## `Loop._impl_v11`: termination-mode selection and `cond_fn`
(onnx.py lines 2976-3007).

```
max_loop_count = inputs[0]
cond = inputs[1]
...
assert cond is not None or max_loop_count is not None
is_for_loop = max_loop_count is not None and cond is None
is_condition_for_loop = cond is not None and max_loop_count is not None

def cond_fn(*loop_inputs):
    i = loop_inputs[0]
    max_count = loop_inputs[1]
    w = loop_inputs[2]
    if cond is not None:
        out_while = _op.equal(w, _expr.const(True, "bool"))
    if max_loop_count is not None:
        out_loop = _op.less(i, max_count)
    if is_condition_for_loop:
        return _op.logical_and(out_while, out_loop)
    if is_for_loop:
        return out_loop
    return out_while
```
`max_loop_count`/`cond` are `Option`s (`none` models an absent optional
node input); `i`, `max_count` are the runtime iteration counter and bound;
`w` is the loop-carried boolean condition.  A `none` result models the
Python `NameError` from reading an unbound local (unreachable under the
source's `assert`). -/
def loop_cond_fn (max_loop_count : Option Int) (cond : Option Bool)
    (i max_count : Int) (w : Bool) : Option Bool :=
  let is_for_loop := max_loop_count.isSome && cond.isNone
  let is_condition_for_loop := cond.isSome && max_loop_count.isSome
  let out_while : Option Bool := if cond.isSome then some (w == true) else none
  let out_loop : Option Bool := if max_loop_count.isSome then some (decide (i < max_count)) else none
  if is_condition_for_loop then
    match out_while, out_loop with
    | some a, some b => some (a && b)
    | _, _ => none
  else if is_for_loop then out_loop
  else out_while

/-- C5: the Loop converter's termination test is selected from which of
{max trip count, continuation condition} are present among the node's
inputs: max-count only ⇒ continue while `i < max_count`; condition only ⇒
continue while the carried condition holds; both ⇒ continue while both the
count has not been reached and the condition holds. -/
theorem C5_loop_termination_modes :
    (∀ (m i mc : Int) (w : Bool),
      loop_cond_fn (some m) none i mc w = some (decide (i < mc))) ∧
    (∀ (c : Bool) (i mc : Int) (w : Bool),
      loop_cond_fn none (some c) i mc w = some (w == true)) ∧
    (∀ (m : Int) (c : Bool) (i mc : Int) (w : Bool),
      loop_cond_fn (some m) (some c) i mc w =
        some ((w == true) && decide (i < mc))) := by
  refine ⟨?_, ?_, ?_⟩ <;> intros <;> rfl

/-! ## The graph importer (`GraphProto`, onnx.py lines 4500-4812) and the
control-flow inliner (`If._impl_v1`, lines 3156-3198).

The embedding below models:
* relay expressions as the first-order term language `Expr` (a `var` is a
  relay free variable carrying its name hint; `const` embeds a materialized
  tensor; `call` covers relay operator applications; `tuple` and
  `tupleGetItem` model `_expr.Tuple` / `_expr.TupleGetItem`; `ifE` models
  `_expr.If`);
* tensors as their raw integer payload (`Tensor`), since shape/dtype
  metadata never influences the control flow under verification;
* Python dicts (`self._nodes`, `self._params`, `self._inputs`,
  `self._renames`) as association lists with Python-dict semantics, via
  `dins`/`dget?`/`dupdate` below;
* `fold_constant` as the identity pass (it is an external relay
  optimization consumed as an oracle) and relay shape inference
  (`infer_shape`, used by `If._impl_v1` to reduce a non-scalar condition)
  as an explicit oracle parameter `inferRank`;
* `analysis.free_vars` as `fvList`, the deduplicated list of variable
  names occurring in a term (the modeled terms contain no binders). -/

/-- Raw tensor payload of an initializer. -/
abbrev Tensor := List Int

/-- Relay expressions, as produced by the importer. -/
inductive Expr where
  | var (name : String)
  | const (t : Tensor)
  | call (op : String) (args : List Expr)
  | tuple (fields : List Expr)
  | tupleGetItem (e : Expr) (idx : Nat)
  | ifE (c tb eb : Expr)
  deriving Repr

mutual
def Expr.beq : Expr → Expr → Bool
  | .var a, .var b => a == b
  | .const a, .const b => a == b
  | .call o1 a1, .call o2 a2 => o1 == o2 && Expr.beqL a1 a2
  | .tuple a, .tuple b => Expr.beqL a b
  | .tupleGetItem e1 i1, .tupleGetItem e2 i2 => Expr.beq e1 e2 && i1 == i2
  | .ifE c1 t1 e1, .ifE c2 t2 e2 => Expr.beq c1 c2 && (Expr.beq t1 t2 && Expr.beq e1 e2)
  | _, _ => false
def Expr.beqL : List Expr → List Expr → Bool
  | [], [] => true
  | a :: as, b :: bs => Expr.beq a b && Expr.beqL as bs
  | _, _ => false
end

mutual
theorem Expr.eq_of_beq : ∀ {a b : Expr}, Expr.beq a b = true → a = b
  | .var _, .var _, h => by simp only [Expr.beq, beq_iff_eq] at h; simp [h]
  | .const _, .const _, h => by simp only [Expr.beq, beq_iff_eq] at h; simp [h]
  | .call o1 a1, .call o2 a2, h => by
      simp only [Expr.beq, Bool.and_eq_true, beq_iff_eq] at h
      have := Expr.eqL_of_beqL h.2
      simp [h.1, this]
  | .tuple a, .tuple b, h => by
      simp only [Expr.beq] at h
      have := Expr.eqL_of_beqL h
      simp [this]
  | .tupleGetItem e1 i1, .tupleGetItem e2 i2, h => by
      simp only [Expr.beq, Bool.and_eq_true, beq_iff_eq] at h
      have := Expr.eq_of_beq h.1
      simp [this, h.2]
  | .ifE c1 t1 e1, .ifE c2 t2 e2, h => by
      simp only [Expr.beq, Bool.and_eq_true] at h
      have h1 := Expr.eq_of_beq h.1
      have h2 := Expr.eq_of_beq h.2.1
      have h3 := Expr.eq_of_beq h.2.2
      simp [h1, h2, h3]
  | .var _, .const _, h => by simp [Expr.beq] at h
  | .var _, .call _ _, h => by simp [Expr.beq] at h
  | .var _, .tuple _, h => by simp [Expr.beq] at h
  | .var _, .tupleGetItem _ _, h => by simp [Expr.beq] at h
  | .var _, .ifE _ _ _, h => by simp [Expr.beq] at h
  | .const _, .var _, h => by simp [Expr.beq] at h
  | .const _, .call _ _, h => by simp [Expr.beq] at h
  | .const _, .tuple _, h => by simp [Expr.beq] at h
  | .const _, .tupleGetItem _ _, h => by simp [Expr.beq] at h
  | .const _, .ifE _ _ _, h => by simp [Expr.beq] at h
  | .call _ _, .var _, h => by simp [Expr.beq] at h
  | .call _ _, .const _, h => by simp [Expr.beq] at h
  | .call _ _, .tuple _, h => by simp [Expr.beq] at h
  | .call _ _, .tupleGetItem _ _, h => by simp [Expr.beq] at h
  | .call _ _, .ifE _ _ _, h => by simp [Expr.beq] at h
  | .tuple _, .var _, h => by simp [Expr.beq] at h
  | .tuple _, .const _, h => by simp [Expr.beq] at h
  | .tuple _, .call _ _, h => by simp [Expr.beq] at h
  | .tuple _, .tupleGetItem _ _, h => by simp [Expr.beq] at h
  | .tuple _, .ifE _ _ _, h => by simp [Expr.beq] at h
  | .tupleGetItem _ _, .var _, h => by simp [Expr.beq] at h
  | .tupleGetItem _ _, .const _, h => by simp [Expr.beq] at h
  | .tupleGetItem _ _, .call _ _, h => by simp [Expr.beq] at h
  | .tupleGetItem _ _, .tuple _, h => by simp [Expr.beq] at h
  | .tupleGetItem _ _, .ifE _ _ _, h => by simp [Expr.beq] at h
  | .ifE _ _ _, .var _, h => by simp [Expr.beq] at h
  | .ifE _ _ _, .const _, h => by simp [Expr.beq] at h
  | .ifE _ _ _, .call _ _, h => by simp [Expr.beq] at h
  | .ifE _ _ _, .tuple _, h => by simp [Expr.beq] at h
  | .ifE _ _ _, .tupleGetItem _ _, h => by simp [Expr.beq] at h
theorem Expr.eqL_of_beqL : ∀ {a b : List Expr}, Expr.beqL a b = true → a = b
  | [], [], _ => rfl
  | a :: as, b :: bs, h => by
      simp only [Expr.beqL, Bool.and_eq_true] at h
      have h1 := Expr.eq_of_beq h.1
      have h2 := Expr.eqL_of_beqL h.2
      simp [h1, h2]
  | [], _ :: _, h => by simp [Expr.beqL] at h
  | _ :: _, [], h => by simp [Expr.beqL] at h
end

mutual
theorem Expr.beq_refl : ∀ (a : Expr), Expr.beq a a = true
  | .var _ => by simp [Expr.beq]
  | .const _ => by simp [Expr.beq]
  | .call o a => by simp [Expr.beq, Expr.beqL_refl a]
  | .tuple a => by simp only [Expr.beq]; exact Expr.beqL_refl a
  | .tupleGetItem e i => by simp [Expr.beq, Expr.beq_refl e]
  | .ifE c t e => by simp [Expr.beq, Expr.beq_refl c, Expr.beq_refl t, Expr.beq_refl e]
theorem Expr.beqL_refl : ∀ (a : List Expr), Expr.beqL a a = true
  | [] => rfl
  | a :: as => by simp [Expr.beqL, Expr.beq_refl a, Expr.beqL_refl as]
end

instance : DecidableEq Expr := fun a b =>
  decidable_of_iff (Expr.beq a b = true)
    ⟨Expr.eq_of_beq, fun h => h ▸ Expr.beq_refl a⟩

mutual
/-- Variable occurrences of a term, in order, with repetitions. -/
def Expr.occs : Expr → List String
  | .var n => [n]
  | .const _ => []
  | .call _ args => Expr.occsL args
  | .tuple fields => Expr.occsL fields
  | .tupleGetItem e _ => Expr.occs e
  | .ifE c tb eb => Expr.occs c ++ (Expr.occs tb ++ Expr.occs eb)
def Expr.occsL : List Expr → List String
  | [] => []
  | e :: es => Expr.occs e ++ Expr.occsL es
end

/-- Model of `analysis.free_vars`: the distinct variable names of a term (the
modeled terms contain no binders), in order of first occurrence. -/
def fvList (e : Expr) : List String :=
  (Expr.occs e).foldl (fun acc n => if n ∈ acc then acc else acc ++ [n]) []

/-! ### Python dictionaries as association lists.

`dins` is `d[k] = v` (replace in place if the key exists, else append);
`dget?` is `d.get(k)`; `dmem` is `k in d`; `derase` is `d.pop(k)`'s removal
effect; `dupdate` is `d1.update(d2)`. -/

def dins {κ β : Type} [DecidableEq κ] (d : List (κ × β)) (k : κ) (v : β) :
    List (κ × β) :=
  if d.any (fun p => decide (p.1 = k)) then
    d.map (fun p => if p.1 = k then (k, v) else p)
  else d ++ [(k, v)]

def dget? {κ β : Type} [DecidableEq κ] (d : List (κ × β)) (k : κ) : Option β :=
  match d with
  | [] => none
  | p :: rest => if p.1 = k then some p.2 else dget? rest k

def dmem {κ β : Type} [DecidableEq κ] (d : List (κ × β)) (k : κ) : Bool :=
  d.any (fun p => decide (p.1 = k))

def derase {κ β : Type} [DecidableEq κ] (d : List (κ × β)) (k : κ) :
    List (κ × β) :=
  d.filter (fun p => decide (p.1 ≠ k))

def dupdate {κ β : Type} [DecidableEq κ] (d1 d2 : List (κ × β)) :
    List (κ × β) :=
  d2.foldl (fun d p => dins d p.1 p.2) d1

theorem dmem_iff_dget? {κ β : Type} [DecidableEq κ] (d : List (κ × β)) (k : κ) :
    dmem d k = true ↔ ∃ v, dget? d k = some v := by
  induction d with
  | nil => simp [dmem, dget?]
  | cons p rest ih =>
    by_cases hp : p.1 = k
    · simp [dmem, dget?, hp]
    · simp only [dmem, List.any_cons, decide_eq_true_eq, hp, Bool.or_eq_true, decide_eq_true_eq,
        false_or, dget?, if_neg hp]
      exact ih

theorem dget?_mapRep_found {κ β : Type} [DecidableEq κ] (k : κ) (v : β) :
    ∀ (d : List (κ × β)), d.any (fun p => decide (p.1 = k)) = true →
      dget? (d.map (fun p => if p.1 = k then (k, v) else p)) k = some v := by
  intro d
  induction d with
  | nil => simp
  | cons p rest ih =>
    intro hin
    by_cases hp : p.1 = k
    · simp [dget?, hp]
    · simp only [List.map_cons, if_neg hp, dget?, if_neg hp]
      simp only [List.any_cons, Bool.or_eq_true, decide_eq_true_eq] at hin
      rcases hin with h | h
      · exact absurd h hp
      · exact ih h

theorem dget?_mapRep_ne {κ β : Type} [DecidableEq κ] (k k2 : κ) (v : β) (hne : k ≠ k2) :
    ∀ (d : List (κ × β)),
      dget? (d.map (fun p => if p.1 = k then (k, v) else p)) k2 = dget? d k2 := by
  intro d
  induction d with
  | nil => simp [dget?]
  | cons p rest ih =>
    by_cases hp : p.1 = k
    · simp only [List.map_cons, if_pos hp, dget?, if_neg hne]
      rw [if_neg (fun h => hne (hp ▸ h))]
      exact ih
    · simp only [List.map_cons, if_neg hp, dget?]
      by_cases hp2 : p.1 = k2
      · simp [hp2]
      · rw [if_neg hp2, if_neg hp2]
        exact ih

theorem dget?_append_ne {κ β : Type} [DecidableEq κ] (k k2 : κ) (v : β) (hne : k ≠ k2) :
    ∀ (d : List (κ × β)), dget? (d ++ [(k, v)]) k2 = dget? d k2 := by
  intro d
  induction d with
  | nil => simp [dget?, if_neg hne]
  | cons p rest ih =>
    simp only [List.cons_append, dget?]
    by_cases hp2 : p.1 = k2
    · simp [hp2]
    · rw [if_neg hp2, if_neg hp2]
      exact ih

theorem dget?_dins_self {κ β : Type} [DecidableEq κ] (d : List (κ × β)) (k : κ) (v : β) :
    dget? (dins d k v) k = some v := by
  unfold dins
  by_cases hin : d.any (fun p => decide (p.1 = k)) = true
  · rw [if_pos hin]
    exact dget?_mapRep_found k v d hin
  · rw [if_neg hin]
    induction d with
    | nil => simp [dget?]
    | cons p rest ih =>
      simp only [List.any_cons, Bool.or_eq_true, decide_eq_true_eq, not_or] at hin
      simp only [List.cons_append, dget?, if_neg hin.1]
      exact ih (by simp [hin.2])

theorem dget?_dins_ne {κ β : Type} [DecidableEq κ] (d : List (κ × β)) (k k2 : κ) (v : β)
    (hne : k ≠ k2) : dget? (dins d k v) k2 = dget? d k2 := by
  unfold dins
  by_cases hin : d.any (fun p => decide (p.1 = k)) = true
  · rw [if_pos hin]
    exact dget?_mapRep_ne k k2 v hne d
  · rw [if_neg hin]
    exact dget?_append_ne k k2 v hne d

theorem dmem_dins {κ β : Type} [DecidableEq κ] (d : List (κ × β)) (k k2 : κ) (v : β) :
    dmem (dins d k v) k2 = (dmem d k2 || decide (k = k2)) := by
  rcases Decidable.em (k = k2) with h | h
  · subst h
    have h1 : dmem (dins d k v) k = true := (dmem_iff_dget? _ _).mpr ⟨v, dget?_dins_self d k v⟩
    rw [h1]
    simp
  · simp only [decide_eq_false h, Bool.or_false]
    rcases Decidable.em (dmem d k2 = true) with h2 | h2
    · rw [h2]
      rcases (dmem_iff_dget? d k2).mp h2 with ⟨w, hw⟩
      exact (dmem_iff_dget? _ _).mpr ⟨w, by rw [dget?_dins_ne d k k2 v h]; exact hw⟩
    · have h2f : dmem d k2 = false := by simpa using h2
      rw [h2f]
      by_contra hcon
      have : dmem (dins d k v) k2 = true := by
        cases hx : dmem (dins d k v) k2
        · exact absurd hx hcon
        · rfl
      rcases (dmem_iff_dget? _ _).mp this with ⟨w, hw⟩
      rw [dget?_dins_ne d k k2 v h] at hw
      have := (dmem_iff_dget? d k2).mpr ⟨w, hw⟩
      rw [h2f] at this
      exact Bool.false_ne_true this

/-! Small reduction lemmas so that `simp` can evaluate the `Except`-valued
folds of the pipeline. -/

@[simp] theorem except_bind_ok {e a b : Type} (x : a) (f : a → Except e b) :
    (Except.ok x : Except e a) >>= f = f x := rfl

@[simp] theorem except_bind_error {e a b : Type} (err : e) (f : a → Except e b) :
    (Except.error err : Except e a) >>= f = Except.error err := rfl

@[simp] theorem except_map_ok {e a b : Type} (x : a) (f : a → b) :
    f <$> (Except.ok x : Except e a) = Except.ok (f x) := rfl

@[simp] theorem except_map_error {e a b : Type} (err : e) (f : a → b) :
    f <$> (Except.error err : Except e a) = Except.error err := rfl

@[simp] theorem except_pure_eq {e a : Type} (x : a) :
    (pure x : Except e a) = Except.ok x := rfl

/-- Importer-level Python exceptions. -/
inductive ImpErr where
  | valueError (msg : String)
  | opNotImplemented (ops : List String)
  | notImplemented (msg : String)
  | keyError (name : String)
  | indexError
  | assertionError (msg : String)
  | outOfFuel
  deriving Repr, DecidableEq

/-! The serialized-graph data model actually read by `from_onnx`: node
attributes may embed whole subgraphs (`If` branches), so the three types
are mutually inductive.  `NodeDef` keeps the protobuf field names
(`op_type`, `input`, `output`); only the attribute kinds exercised by
the importer's control flow are modeled. -/
mutual
inductive AttrVal where
  | aInt (i : Int)
  | aTensor (t : Tensor)
  | aGraph (g : GraphDef)
inductive NodeDef where
  | mk (op_type : String) (input : List String) (output : List String)
      (attrs : List (String × AttrVal))
inductive GraphDef where
  | mk (initializer : List (String × Tensor)) (input : List String)
      (node : List NodeDef) (output : List String)
end

def NodeDef.op_type : NodeDef → String
  | .mk o _ _ _ => o

def NodeDef.input : NodeDef → List String
  | .mk _ i _ _ => i

def NodeDef.output : NodeDef → List String
  | .mk _ _ o _ => o

def NodeDef.attrs : NodeDef → List (String × AttrVal)
  | .mk _ _ _ a => a

def GraphDef.initializer : GraphDef → List (String × Tensor)
  | .mk i _ _ _ => i

def GraphDef.input : GraphDef → List String
  | .mk _ i _ _ => i

def GraphDef.node : GraphDef → List NodeDef
  | .mk _ _ n _ => n

def GraphDef.output : GraphDef → List String
  | .mk _ _ _ o => o

/-- The mutable state of a `GraphProto` object: `_nodes`, `_params`,
`_inputs`, `_input_names`, `_renames`.  (`_num_input`/`_num_param` are
counters never read back and are omitted; `_renames` is initialized empty
and never written anywhere in onnx.py, but is kept because the node-input
lookup consults it.) -/
structure GState where
  nodes : List (String × Expr)
  params : List (String × Tensor)
  inputs : List (String × Expr)
  input_names : List String
  renames : List (String × String)
  deriving Repr, DecidableEq

def GState.empty : GState := ⟨[], [], [], [], []⟩

/-- A converter's result as seen by `from_onnx`: the relay expression and
`outputs_num` (`1` when the result is not a `TupleWrapper`, otherwise the
wrapper's arity; `TupleWrapper.__getitem__ i` is `TupleGetItem expr i`). -/
structure OpRes where
  expr : Expr
  num : Nat
  deriving Repr, DecidableEq

/-! ### Output-arity reconciliation (onnx.py lines 4680-4710). -/

/-- The `for i, output in enumerate(node_output): if output != "":
valid_outputs[i] = True` loop; assigning past the end of `valid_outputs`
raises `IndexError`. -/
def valid_outputs_loop : Nat → List Bool → List String → Except ImpErr (List Bool)
  | _, valid, [] => Except.ok valid
  | i, valid, name :: rest =>
    if name ≠ "" then
      if i < valid.length then valid_outputs_loop (i + 1) (valid.set i true) rest
      else Except.error ImpErr.indexError
    else valid_outputs_loop (i + 1) valid rest

/-- The selection `[tup.fields[i] for i, valid in enumerate(valid_outputs) if valid]`
(the `TupleWrapper` invariant guarantees `fields.length = outputs_num =
valid.length`, so the `getD` default is never used). -/
def select_fields (fields : List Expr) (valid : List Bool) : List Expr :=
  valid.enum.filterMap (fun p =>
    if p.2 then some (fields.getD p.1 (Expr.tuple [])) else none)

/-- The selection `[op[i] for i, valid in enumerate(valid_outputs) if valid]` where `op`
is a `TupleWrapper` over a non-`Tuple` expression, so `op[i]` is
`TupleGetItem`. -/
def select_getitem (e : Expr) (valid : List Bool) : List Expr :=
  valid.enum.filterMap (fun p =>
    if p.2 then some (Expr.tupleGetItem e p.1) else none)

/-- Lines 4680-4710: drop produced outputs at invalid positions, renumber,
and check the final arity assertion.  Returns the adjusted result and the
adjusted declared-output list. -/
def reconcile (res : OpRes) (node_output : List String) :
    Except ImpErr (OpRes × List String) :=
  if 1 < res.num then
    match valid_outputs_loop 0 (List.replicate res.num false) node_output with
    | Except.error e => Except.error e
    | Except.ok valid =>
      if valid.all (fun b => b) then
        if node_output.length = res.num then Except.ok (res, node_output)
        else Except.error (ImpErr.assertionError "Number of output mismatch")
      else
        let outs := match res.expr with
          | Expr.tuple fields => select_fields fields valid
          | _ => select_getitem res.expr valid
        let res2 : OpRes :=
          if outs.length = 1 then ⟨outs.getD 0 (Expr.tuple []), 1⟩
          else if outs.length ≠ res.num then ⟨Expr.tuple outs, outs.length⟩
          else ⟨res.expr, outs.length⟩
        let node_output2 := node_output.filter (fun s => s ≠ "")
        if node_output2.length = res2.num then Except.ok (res2, node_output2)
        else Except.error (ImpErr.assertionError "Number of output mismatch")
  else
    if node_output.length = res.num then Except.ok (res, node_output)
    else Except.error (ImpErr.assertionError "Number of output mismatch")

/-- Lines 4712-4716: bind the reconciled outputs into `self._nodes`
(`op[i]` through `TupleWrapper.__getitem__`). -/
def bind_outputs (nodes : List (String × Expr)) (res : OpRes)
    (node_output : List String) : Except ImpErr (List (String × Expr)) :=
  if res.num = 1 then
    match node_output with
    | [] => Except.error ImpErr.indexError
    | n0 :: _ => Except.ok (dins nodes n0 res.expr)
  else
    Except.ok (node_output.enum.foldl
      (fun nds p => dins nds p.2 (Expr.tupleGetItem res.expr p.1)) nodes)

/-! ### The conversion pipeline (`GraphProto.from_onnx`, lines 4553-4734,
and `If._impl_v1`, lines 3156-3198).

Version resolution (`get_converter`, verified above) happens when
`_get_convert_map` is built; the model dispatches converters directly by
operator name.  The modeled convert map keeps three representative
entries — `Identity` (`Renamer("copy")`), `Add` (`Elemwise`), and the
control-flow inliner `If` — the remaining ~150 entries are
operator-semantics rules that the spec treats as external collaborators.
Recursion into `If` subgraphs is paid for with an explicit `fuel`
parameter; `ImpErr.outOfFuel` never occurs for well-founded inputs. -/

/-- The list `_identity_list = []` (line 4299). -/
def identity_list : List String := []

/-- The operator names registered in the modeled convert map. -/
def convert_map_keys : List String := ["Identity", "Add", "If"]

/-- Lines 4585-4597: materialize every initializer; under
`freeze_params` bind it to a constant, otherwise to a fresh variable while
retaining the tensor in `_params`.  (`not name.strip()` is the
all-whitespace test.) -/
def bind_initializers (freeze_params : Bool) (st : GState)
    (inits : List (String × Tensor)) : Except ImpErr GState :=
  inits.foldlM (fun st p =>
    if p.1.data.all Char.isWhitespace then
      Except.error (ImpErr.valueError "Tensor's name is required.")
    else if freeze_params then
      Except.ok { st with nodes := dins st.nodes p.1 (Expr.const p.2) }
    else
      Except.ok { st with params := dins st.params p.1 p.2,
                          nodes := dins st.nodes p.1 (Expr.var p.1) }) st

/-- Lines 4598-4629: process declared graph inputs.  An input naming a
retained initializer re-binds it (moving its `_params` entry to the end);
an input already present in `_nodes` (e.g. a frozen initializer) is
skipped via `continue` — in particular it is *not* added to `_inputs`;
otherwise a fresh input variable is allocated.  Shape/dtype overrides only
affect variable metadata, which the model does not carry. -/
def bind_graph_inputs (st : GState) (inputNames : List String) :
    Except ImpErr GState :=
  inputNames.foldlM (fun st i_name =>
    if dmem st.params i_name then
      match dget? st.params i_name with
      | none => Except.error (ImpErr.keyError i_name)
      | some arr =>
        Except.ok { st with params := dins (derase st.params i_name) i_name arr,
                            nodes := dins st.nodes i_name (Expr.var i_name),
                            inputs := dins st.inputs i_name (Expr.var i_name) }
    else if dmem st.nodes i_name then Except.ok st
    else
      Except.ok { st with input_names := st.input_names ++ [i_name],
                          nodes := dins st.nodes i_name (Expr.var i_name),
                          inputs := dins st.inputs i_name (Expr.var i_name) }) st

/-- Lines 4637-4647: collect every operator name with no registered
converter (Python builds a `set`; the model keeps first-occurrence
order). -/
def unsupported_ops (nodes : List NodeDef) : List String :=
  nodes.foldl (fun s n =>
    if n.op_type ∉ convert_map_keys ∧ n.op_type ≠ "Constant" ∧
        n.op_type ∉ identity_list ∧ n.op_type ∉ s
    then s ++ [n.op_type] else s) []

/-- Lines 4656-4662: build the converter input list — an empty input name
passes `None`, any other name is looked up through `_renames` in
`_nodes` (a missing binding is a Python `KeyError`). -/
def node_inputs (st : GState) (names : List String) :
    Except ImpErr (List (Option Expr)) :=
  names.mapM (fun i =>
    if i ≠ "" then
      match dget? st.nodes ((dget? st.renames i).getD i) with
      | some e => Except.ok (some e)
      | none => Except.error (ImpErr.keyError i)
    else Except.ok none)

/-- Lines 3183-3192 (each branch of `If._impl_v1`), and identically lines
3147-3153 of `Loop._impl_v11`: after importing a subgraph body,
`graph_scope._params.update(child._params)`,
`graph_scope._nodes.update(child._nodes)`, and every free variable of the
child's result expression is (re)bound in the parent under its name
hint. -/
def merge_branch (st : GState) (childParams : List (String × Tensor))
    (childNodes : List (String × Expr)) (childExpr : Expr) : GState :=
  { st with
    params := dupdate st.params childParams,
    nodes := (fvList childExpr).foldl (fun nds n => dins nds n (Expr.var n))
      (dupdate st.nodes childNodes) }

/-- Model of `If._impl_v1` (lines 3159-3198).  `fromOnnx` is the recursive
subgraph importer (`GraphProto.from_onnx` with `get_output_expr=True` on a
fresh `GraphProto` seeded with a copy of the current scope's `_nodes`);
`inferRank` is the shape-inference oracle deciding whether the condition
needs `take(cond, 0)`. -/
def if_impl (fromOnnx : GState → GraphDef → Except ImpErr (Expr × GState))
    (inferRank : Expr → Nat) (st : GState) (inputs : List (Option Expr))
    (attrs : List (String × AttrVal)) : Except ImpErr (OpRes × GState) :=
  match inputs.getD 0 none with
  | none => Except.error (ImpErr.assertionError "If: condition input is None")
  | some cond0 =>
    let cond := if 0 < inferRank cond0
      then Expr.call "take" [cond0, Expr.const [0]] else cond0
    match dget? attrs "then_branch", dget? attrs "else_branch" with
    | some (AttrVal.aGraph then_branch), some (AttrVal.aGraph else_branch) =>
      (match fromOnnx { GState.empty with nodes := st.nodes } then_branch with
       | Except.error e => Except.error e
       | Except.ok (then_expr, thenSt) =>
         match fromOnnx { GState.empty with nodes := st.nodes } else_branch with
         | Except.error e => Except.error e
         | Except.ok (else_expr, elseSt) =>
           let st1 := merge_branch st thenSt.params thenSt.nodes then_expr
           let st2 := merge_branch st1 elseSt.params elseSt.nodes else_expr
           let ret := Expr.ifE cond then_expr else_expr
           if 1 < then_branch.output.length then
             Except.ok (⟨ret, then_branch.output.length⟩, st2)
           else Except.ok (⟨ret, 1⟩, st2))
    | _, _ => Except.error (ImpErr.assertionError "If: missing branch body")

/-- Model of `GraphProto._convert_operator` (lines 4773-4801), specialized to the
modeled convert map.  `Identity` is `Renamer("copy")`; `Add` is the
`Elemwise` rule (asserting two inputs); `If` is the control-flow
inliner. -/
def convert_operator (fromOnnx : GState → GraphDef → Except ImpErr (Expr × GState))
    (inferRank : Expr → Nat) (st : GState) (op_name : String)
    (inputs : List (Option Expr)) (attrs : List (String × AttrVal)) :
    Except ImpErr (OpRes × GState) :=
  if op_name = "Identity" then
    match inputs with
    | [some a] => Except.ok (⟨Expr.call "copy" [a], 1⟩, st)
    | _ => Except.error (ImpErr.assertionError "copy: wrong inputs")
  else if op_name = "Add" then
    match inputs with
    | [some a, some b] => Except.ok (⟨Expr.call "add" [a, b], 1⟩, st)
    | _ => Except.error (ImpErr.assertionError "Math op add take 2 inputs")
  else if op_name = "If" then if_impl fromOnnx inferRank st inputs attrs
  else Except.error (ImpErr.notImplemented op_name)

/-- One iteration of the node loop (lines 4653-4716): build inputs, fix
Dropout outputs, convert (`fold_constant` is the identity pass), reconcile
arity, bind outputs. -/
def convert_node (fromOnnx : GState → GraphDef → Except ImpErr (Expr × GState))
    (inferRank : Expr → Nat) (st : GState) (nd : NodeDef) :
    Except ImpErr GState :=
  match node_inputs st nd.input with
  | Except.error e => Except.error e
  | Except.ok inputs =>
    let node_output := fix_outputs nd.op_type nd.output
    match convert_operator fromOnnx inferRank st nd.op_type inputs nd.attrs with
    | Except.error e => Except.error e
    | Except.ok (res, st) =>
      match reconcile res node_output with
      | Except.error e => Except.error e
      | Except.ok (res2, node_output2) =>
        match bind_outputs st.nodes res2 node_output2 with
        | Except.error e => Except.error e
        | Except.ok nodes2 => Except.ok { st with nodes := nodes2 }

/-- Model of `GraphProto.from_onnx` with `get_output_expr=True` (lines 4583-4723):
initializers, declared inputs, the aggregate unsupported-operator scan,
the node loop in declaration order, then lookup of the declared graph
outputs. -/
def from_onnx_expr (fuel : Nat) (inferRank : Expr → Nat) (freeze_params : Bool)
    (st : GState) (g : GraphDef) : Except ImpErr (Expr × GState) :=
  match fuel with
  | 0 => Except.error ImpErr.outOfFuel
  | fuel + 1 =>
    match bind_initializers freeze_params st g.initializer with
    | Except.error e => Except.error e
    | Except.ok st =>
      match bind_graph_inputs st g.input with
      | Except.error e => Except.error e
      | Except.ok st =>
        if unsupported_ops g.node ≠ [] then
          Except.error (ImpErr.opNotImplemented (unsupported_ops g.node))
        else
          match g.node.foldlM
              (convert_node (from_onnx_expr fuel inferRank freeze_params) inferRank) st with
          | Except.error e => Except.error e
          | Except.ok st =>
            match g.output.mapM (fun o => match dget? st.nodes o with
              | some e => Except.ok e
              | none => Except.error (ImpErr.keyError o)) with
            | Except.error e => Except.error e
            | Except.ok [single] => Except.ok (single, st)
            | Except.ok outs => Except.ok (Expr.tuple outs, st)

/-- A relay function value: ordered parameter list and body. -/
structure FuncM where
  params : List Expr
  body : Expr
  deriving Repr, DecidableEq

/-- Lines 4724-4734: reverse the `_nodes` dict (`{v: k for k, v in ...}`),
map each free variable of the outputs back to its binding name (a miss is
a `KeyError`), extend `_inputs` with the still-referenced non-frozen
params, and build the function over `_inputs`' values.  The residual
constant table returned is `self._params`, whole. -/
def rev_nodes (nodes : List (String × Expr)) : List (Expr × String) :=
  nodes.foldl (fun r p => dins r p.2 p.1) []

/-- The body of the `for i_name in self._params:` loop of lines
4729-4731. -/
def assemble_step (nodes : List (String × Expr)) (free_names : List String)
    (ins : List (String × Expr)) (p : String × Tensor) :
    Except ImpErr (List (String × Expr)) :=
  if p.1 ∈ free_names ∧ dmem ins p.1 = false then
    match dget? nodes p.1 with
    | some e => Except.ok (dins ins p.1 e)
    | none => Except.error (ImpErr.keyError p.1)
  else Except.ok ins

def assemble_func (st : GState) (outputs : Expr) :
    Except ImpErr (FuncM × List (String × Tensor) × List (String × Expr)) :=
  match (fvList outputs).mapM (fun n => match dget? (rev_nodes st.nodes) (Expr.var n) with
    | some k => Except.ok k
    | none => Except.error (ImpErr.keyError n)) with
  | Except.error e => Except.error e
  | Except.ok free_names =>
    match st.params.foldlM (assemble_step st.nodes free_names) st.inputs with
    | Except.error e => Except.error e
    | Except.ok ins =>
      Except.ok (⟨ins.map (fun p => p.2), outputs⟩, st.params, ins)

/-- The full import (lines 4583-4734 with `get_output_expr=False`),
returning the assembled function, the residual constant table, and the
final scope state. -/
def from_onnx (fuel : Nat) (inferRank : Expr → Nat) (freeze_params : Bool)
    (g : GraphDef) : Except ImpErr (FuncM × List (String × Tensor) × GState) :=
  match from_onnx_expr fuel inferRank freeze_params GState.empty g with
  | Except.error e => Except.error e
  | Except.ok (outputs, st) =>
    match assemble_func st outputs with
    | Except.error e => Except.error e
    | Except.ok (f, params, ins) => Except.ok (f, params, { st with inputs := ins })

/-- C8: importing a graph that consists solely of one initializer and one
declared output naming it.  With `freeze_params = true` the function has
zero parameters and its body is the tensor embedded as a constant, with an
empty residual table; with `freeze_params = false` it has exactly one
parameter and the residual constant table binds that parameter's name to
exactly the initializer tensor. -/
theorem C8_single_initializer_roundtrip (name : String) (t : Tensor)
    (hname : name.data.all Char.isWhitespace = false) :
    (∃ st, from_onnx 1 (fun _ => 0) true (GraphDef.mk [(name, t)] [] [] [name]) =
      Except.ok (⟨[], Expr.const t⟩, [], st)) ∧
    (∃ st, from_onnx 1 (fun _ => 0) false (GraphDef.mk [(name, t)] [] [] [name]) =
      Except.ok (⟨[Expr.var name], Expr.var name⟩, [(name, t)], st)) := by
  constructor
  · refine ⟨⟨[(name, Expr.const t)], [], [], [], []⟩, ?_⟩
    simp only [from_onnx, from_onnx_expr, bind_initializers, bind_graph_inputs,
      unsupported_ops, GraphDef.initializer, GraphDef.input, GraphDef.node, GraphDef.output,
      List.foldlM, List.foldl, hname, Bool.false_eq_true, if_false, dins, List.any_nil,
      List.append_nil, List.nil_append, List.mapM, List.mapM.loop, dget?, if_pos rfl,
      assemble_func, assemble_step, rev_nodes, fvList, Expr.occs, List.foldl_cons, List.foldl_nil]
    simp [pure, Except.pure, dget?, dins, dmem, GState.empty, List.mapM.loop,
      Functor.map, Except.map, fvList, Expr.occs, assemble_step, rev_nodes]
  · refine ⟨⟨[(name, Expr.var name)], [(name, t)], [(name, Expr.var name)], [], []⟩, ?_⟩
    simp only [from_onnx, from_onnx_expr, bind_initializers, bind_graph_inputs,
      unsupported_ops, GraphDef.initializer, GraphDef.input, GraphDef.node, GraphDef.output,
      List.foldlM, List.foldl, hname, Bool.false_eq_true, if_false, dins, List.any_nil,
      List.append_nil, List.nil_append, List.mapM, List.mapM.loop, dget?, if_pos rfl,
      assemble_func, assemble_step, rev_nodes, fvList, Expr.occs, List.foldl_cons, List.foldl_nil]
    simp [pure, Except.pure, dget?, dins, dmem, GState.empty, List.mapM.loop,
      Functor.map, Except.map, fvList, Expr.occs, assemble_step, rev_nodes]

/-- Witness for `C8_single_initializer_roundtrip` at initializer
`("w", [5])`. -/
theorem C8_single_initializer_roundtrip_witness :
    ("w".data.all Char.isWhitespace = false) ∧
      ((∃ st, from_onnx 1 (fun _ => 0) true (GraphDef.mk [("w", [5])] [] [] ["w"]) =
        Except.ok (⟨[], Expr.const [5]⟩, [], st)) ∧
      (∃ st, from_onnx 1 (fun _ => 0) false (GraphDef.mk [("w", [5])] [] [] ["w"]) =
        Except.ok (⟨[Expr.var "w"], Expr.var "w"⟩, [("w", [5])], st))) :=
  ⟨by decide, C8_single_initializer_roundtrip "w" [5] (by decide)⟩

/-- C2 counterexample graphs: one initializer `w`, one declared input `x`,
no nodes; the declared output is `w` (input `x` dead) resp. `x`
(initializer `w` dead). -/
def c2_graph_a : GraphDef := GraphDef.mk [("w", [5])] ["x"] [] ["w"]

def c2_graph_b : GraphDef := GraphDef.mk [("w", [5])] ["x"] [] ["x"]

/-- C2 counterexample: the claim says the assembled parameter list holds
exactly the free parameters reachable from the result and that the
residual table is restricted to still-referenced parameters.  In graph
`a` the declared input `x` is unreachable from the result (`var w`) yet
remains a parameter; in graph `b` the initializer `w` is unreferenced yet
the returned residual table still contains it. -/
theorem C2_pruning_counterexample :
    (from_onnx 1 (fun _ => 0) false c2_graph_a =
      Except.ok (⟨[Expr.var "x", Expr.var "w"], Expr.var "w"⟩, [("w", [5])],
        ⟨[("w", Expr.var "w"), ("x", Expr.var "x")], [("w", [5])],
          [("x", Expr.var "x"), ("w", Expr.var "w")], ["x"], []⟩)) ∧
    ("x" ∉ fvList (Expr.var "w")) ∧
    (from_onnx 1 (fun _ => 0) false c2_graph_b =
      Except.ok (⟨[Expr.var "x"], Expr.var "x"⟩, [("w", [5])],
        ⟨[("w", Expr.var "w"), ("x", Expr.var "x")], [("w", [5])],
          [("x", Expr.var "x")], ["x"], []⟩)) ∧
    ("w" ∉ fvList (Expr.var "x")) := by
  refine ⟨rfl, by decide, rfl, by decide⟩

/-- C6 counterexample graph: an `If` node whose then-branch internally
binds the name `t`; a *later* node of the enclosing graph reads `t`. -/
def c6_graph : GraphDef :=
  GraphDef.mk [] ["c"]
    [NodeDef.mk "If" ["c"] ["o"]
      [("then_branch", AttrVal.aGraph
          (GraphDef.mk [] [] [NodeDef.mk "Identity" ["c"] ["t"] []] ["t"])),
       ("else_branch", AttrVal.aGraph
          (GraphDef.mk [] [] [NodeDef.mk "Identity" ["c"] ["t2"] []] ["t2"]))],
     NodeDef.mk "Identity" ["t"] ["y"] []]
    ["y"]

/-- C6 counterexample: the claim says bindings created inside a control
flow body are invisible to later nodes of the enclosing graph (so the
later `Identity` reading `t` should fail).  Instead the import succeeds:
`If._impl_v1` merges the whole child `_nodes` table into the enclosing
scope, the later node resolves `t` to the value produced inside the
then-branch, and the final state still holds the leaked bindings `t` and
`t2`. -/
theorem C6_scope_leak_counterexample :
    from_onnx 3 (fun _ => 0) false c6_graph =
        Except.ok (⟨[Expr.var "c"], Expr.call "copy" [Expr.call "copy" [Expr.var "c"]]⟩,
          [],
          ⟨[("c", Expr.var "c"),
            ("t", Expr.call "copy" [Expr.var "c"]),
            ("t2", Expr.call "copy" [Expr.var "c"]),
            ("o", Expr.ifE (Expr.var "c") (Expr.call "copy" [Expr.var "c"])
              (Expr.call "copy" [Expr.var "c"])),
            ("y", Expr.call "copy" [Expr.call "copy" [Expr.var "c"]])],
            [], [("c", Expr.var "c")], ["c"], []⟩) ∧
      dget? [("c", Expr.var "c"),
            ("t", Expr.call "copy" [Expr.var "c"]),
            ("t2", Expr.call "copy" [Expr.var "c"]),
            ("o", Expr.ifE (Expr.var "c") (Expr.call "copy" [Expr.var "c"])
              (Expr.call "copy" [Expr.var "c"])),
            ("y", Expr.call "copy" [Expr.call "copy" [Expr.var "c"]])] "t" =
        some (Expr.call "copy" [Expr.var "c"]) :=
  ⟨rfl, rfl⟩

/-- C7 counterexample graph: initializer `w` (not frozen), input `c`, one
`If` node whose branches both reference `w` — a value bound only in the
enclosing scope and not passed as an explicit input — and whose result is
*dead*: the declared graph output is just `c`. -/
def c7_graph : GraphDef :=
  GraphDef.mk [("w", [7])] ["c"]
    [NodeDef.mk "If" ["c"] ["o"]
      [("then_branch", AttrVal.aGraph
          (GraphDef.mk [] [] [NodeDef.mk "Identity" ["w"] ["t"] []] ["t"])),
       ("else_branch", AttrVal.aGraph
          (GraphDef.mk [] [] [NodeDef.mk "Identity" ["w"] ["t2"] []] ["t2"]))]]
    ["c"]

/-- C7 counterexample: the claim says every free variable of a control
flow body appears as a parameter of the assembled top-level function after
the import completes.  Here the import completes, the converted `If`
expression (bound to `o`) visibly references the free variable `w`, yet
the assembled function's parameters are just `[c]` — `w` was pruned
because the `If` result is unreachable from the declared outputs. -/
theorem C7_dead_body_counterexample :
    from_onnx 3 (fun _ => 0) false c7_graph =
        Except.ok (⟨[Expr.var "c"], Expr.var "c"⟩, [("w", [7])],
          ⟨[("w", Expr.var "w"), ("c", Expr.var "c"),
            ("t", Expr.call "copy" [Expr.var "w"]),
            ("t2", Expr.call "copy" [Expr.var "w"]),
            ("o", Expr.ifE (Expr.var "c") (Expr.call "copy" [Expr.var "w"])
              (Expr.call "copy" [Expr.var "w"]))],
            [("w", [7])], [("c", Expr.var "c")], ["c"], []⟩) ∧
      "w" ∈ fvList (Expr.ifE (Expr.var "c")
        (Expr.call "copy" [Expr.var "w"]) (Expr.call "copy" [Expr.var "w"])) ∧
      Expr.var "w" ∉ [Expr.var "c"] :=
  ⟨rfl, by decide, by decide⟩

theorem bind_initializers_ok (freeze : Bool) :
    ∀ (inits : List (String × Tensor)) (st : GState),
      (∀ p ∈ inits, p.1.data.all Char.isWhitespace = false) →
      ∃ st', bind_initializers freeze st inits = Except.ok st' := by
  intro inits
  induction inits with
  | nil => intro st _; exact ⟨st, rfl⟩
  | cons p rest ih =>
    intro st h
    have hp := h p (by simp)
    simp only [bind_initializers, List.foldlM_cons, hp, Bool.false_eq_true, if_false]
    by_cases hf : freeze = true
    · rw [if_pos hf, except_bind_ok]
      exact ih _ (fun q hq => h q (by simp [hq]))
    · rw [if_neg hf, except_bind_ok]
      exact ih _ (fun q hq => h q (by simp [hq]))

theorem bind_graph_inputs_ok :
    ∀ (names : List String) (st : GState),
      ∃ st', bind_graph_inputs st names = Except.ok st' := by
  intro names
  induction names with
  | nil => intro st; exact ⟨st, rfl⟩
  | cons n rest ih =>
    intro st
    simp only [bind_graph_inputs, List.foldlM_cons]
    by_cases hp : dmem st.params n = true
    · rcases (dmem_iff_dget? st.params n).mp hp with ⟨arr, harr⟩
      simp only [hp, if_pos rfl, harr, except_bind_ok]
      exact ih _
    · have hp2 : dmem st.params n = false := by simpa using hp
      simp only [hp2, Bool.false_eq_true, if_false]
      by_cases hn : dmem st.nodes n = true
      · simp only [hn, if_pos rfl, except_bind_ok]
        exact ih _
      · have hn2 : dmem st.nodes n = false := by simpa using hn
        simp only [hn2, Bool.false_eq_true, if_false, except_bind_ok]
        exact ih _

/-- The predicate separating unsupported operator names in the scan of
lines 4640-4647. -/
def unregistered (name : String) : Prop :=
  name ∉ convert_map_keys ∧ name ≠ "Constant" ∧ name ∉ identity_list

instance (name : String) : Decidable (unregistered name) := by
  unfold unregistered
  infer_instance

theorem mem_unsupported_aux :
    ∀ (nodes : List NodeDef) (s : List String) (name : String),
      name ∈ nodes.foldl (fun s n =>
        if n.op_type ∉ convert_map_keys ∧ n.op_type ≠ "Constant" ∧
            n.op_type ∉ identity_list ∧ n.op_type ∉ s
        then s ++ [n.op_type] else s) s ↔
        name ∈ s ∨ ∃ nd ∈ nodes, nd.op_type = name ∧ unregistered name := by
  intro nodes
  induction nodes with
  | nil => intro s name; simp
  | cons nd rest ih =>
    intro s name
    simp only [List.foldl_cons]
    by_cases hc : nd.op_type ∉ convert_map_keys ∧ nd.op_type ≠ "Constant" ∧
        nd.op_type ∉ identity_list ∧ nd.op_type ∉ s
    · rw [if_pos hc, ih]
      constructor
      · rintro (hs | hrest)
        · rcases List.mem_append.mp hs with h | h
          · exact Or.inl h
          · simp only [List.mem_singleton] at h
            exact Or.inr ⟨nd, by simp, h.symm, by
              rw [h]
              exact ⟨hc.1, hc.2.1, hc.2.2.1⟩⟩
        · rcases hrest with ⟨nd2, h2, h3⟩
          exact Or.inr ⟨nd2, by simp [h2], h3⟩
      · rintro (hs | ⟨nd2, hmem, hop, hun⟩)
        · exact Or.inl (List.mem_append.mpr (Or.inl hs))
        · rcases List.mem_cons.mp hmem with rfl | hmem2
          · exact Or.inl (List.mem_append.mpr (Or.inr (by simp [hop])))
          · exact Or.inr ⟨nd2, hmem2, hop, hun⟩
    · rw [if_neg hc, ih]
      constructor
      · rintro (hs | hrest)
        · exact Or.inl hs
        · rcases hrest with ⟨nd2, h2, h3⟩
          exact Or.inr ⟨nd2, by simp [h2], h3⟩
      · rintro (hs | ⟨nd2, hmem, hop, hun⟩)
        · exact Or.inl hs
        · rcases List.mem_cons.mp hmem with rfl | hmem2
          · -- nd2 = nd: since the insertion condition failed, either the
            -- name is already in s or it is registered (contradicting hun)
            rcases hun with ⟨hu1, hu2, hu3⟩
            rw [hop] at hc
            push_neg at hc
            exact Or.inl (hc hu1 hu2 hu3)
          · exact Or.inr ⟨nd2, hmem2, hop, hun⟩

theorem mem_unsupported_ops (nodes : List NodeDef) (name : String) :
    name ∈ unsupported_ops nodes ↔
      ∃ nd ∈ nodes, nd.op_type = name ∧ unregistered name := by
  unfold unsupported_ops
  rw [mem_unsupported_aux nodes [] name]
  simp

/-- C4: when a graph contains (at least) two distinct node operator names
with no registered converter, the import fails with the single aggregate
`OpNotImplemented` error produced by the pre-conversion scan — before any
node is converted — and the reported set contains both names; moreover the
reported set consists of exactly the unregistered operator names of the
graph's nodes. -/
theorem C4_aggregate_unsupported_reporting (fuel : Nat) (inferRank : Expr → Nat)
    (freeze : Bool) (g : GraphDef) (a b : String)
    (hfuel : 0 < fuel)
    (hinit : ∀ p ∈ g.initializer, p.1.data.all Char.isWhitespace = false)
    (_hab : a ≠ b)
    (ha : ∃ nd ∈ g.node, nd.op_type = a ∧ unregistered a)
    (hb : ∃ nd ∈ g.node, nd.op_type = b ∧ unregistered b) :
    from_onnx fuel inferRank freeze g =
        Except.error (ImpErr.opNotImplemented (unsupported_ops g.node)) ∧
      a ∈ unsupported_ops g.node ∧ b ∈ unsupported_ops g.node ∧
      (∀ name, name ∈ unsupported_ops g.node ↔
        ∃ nd ∈ g.node, nd.op_type = name ∧ unregistered name) := by
  have hmema : a ∈ unsupported_ops g.node := (mem_unsupported_ops _ _).mpr ha
  have hmemb : b ∈ unsupported_ops g.node := (mem_unsupported_ops _ _).mpr hb
  refine ⟨?_, hmema, hmemb, fun name => mem_unsupported_ops _ _⟩
  obtain ⟨k, rfl⟩ : ∃ k, fuel = k + 1 := by
    cases fuel with
    | zero => omega
    | succ k => exact ⟨k, rfl⟩
  rcases bind_initializers_ok freeze g.initializer GState.empty hinit with ⟨st1, h1⟩
  rcases bind_graph_inputs_ok g.input st1 with ⟨st2, h2⟩
  have hne : unsupported_ops g.node ≠ [] := fun h => by
    rw [h] at hmema
    simp at hmema
  simp only [from_onnx, from_onnx_expr, h1, h2, if_pos hne]

/-- Witness for `C4_aggregate_unsupported_reporting`: a two-node graph
using the unregistered operators `Foo` and `Bar` fails with the aggregate
error naming both. -/
theorem C4_aggregate_unsupported_reporting_witness :
    from_onnx 1 (fun _ => 0) false
        (GraphDef.mk [] ["x"]
          [NodeDef.mk "Foo" ["x"] ["y"] [], NodeDef.mk "Bar" ["y"] ["z"] []] ["z"]) =
      Except.error (ImpErr.opNotImplemented ["Foo", "Bar"]) ∧
      "Foo" ∈ ["Foo", "Bar"] ∧ "Bar" ∈ ["Foo", "Bar"] := by
  have h := C4_aggregate_unsupported_reporting 1 (fun _ => 0) false
    (GraphDef.mk [] ["x"]
      [NodeDef.mk "Foo" ["x"] ["y"] [], NodeDef.mk "Bar" ["y"] ["z"] []] ["z"])
    "Foo" "Bar" (by decide) (by intro p hp; simp [GraphDef.initializer] at hp) (by decide)
    ⟨NodeDef.mk "Foo" ["x"] ["y"] [], by simp [GraphDef.node], rfl, by decide⟩
    ⟨NodeDef.mk "Bar" ["y"] ["z"] [], by simp [GraphDef.node], rfl, by decide⟩
  exact ⟨h.1, by decide, by decide⟩

/-! ### Supporting lemmas for the assembly-step characterizations. -/

theorem dget?_mem {κ β : Type} [DecidableEq κ] :
    ∀ (d : List (κ × β)) (k : κ) (v : β), dget? d k = some v → (k, v) ∈ d := by
  intro d
  induction d with
  | nil => intro k v h; simp [dget?] at h
  | cons p rest ih =>
    intro k v h
    simp only [dget?] at h
    by_cases hp : p.1 = k
    · rw [if_pos hp] at h
      simp only [Option.some.injEq] at h
      subst hp
      subst h
      simp
    · rw [if_neg hp] at h
      exact List.mem_cons_of_mem p (ih k v h)

theorem dins_append_of_not_mem {κ β : Type} [DecidableEq κ] (d : List (κ × β))
    (k : κ) (v : β) (h : dmem d k = false) : dins d k v = d ++ [(k, v)] := by
  unfold dins
  rw [if_neg]
  intro hc
  rw [show d.any (fun p => decide (p.1 = k)) = dmem d k from rfl, h] at hc
  exact Bool.false_ne_true hc

theorem mapM_ok_mem {eT aT bT : Type} (f : aT → Except eT bT) :
    ∀ (xs : List aT) (ys : List bT), xs.mapM f = Except.ok ys →
      ∀ x ∈ xs, ∀ y, f x = Except.ok y → y ∈ ys := by
  intro xs
  induction xs with
  | nil => intro ys h x hx; simp at hx
  | cons a t ih =>
    intro ys h x hx y hy
    rw [List.mapM_cons] at h
    cases ha : f a with
    | error e => rw [ha] at h; simp at h
    | ok b =>
      rw [ha] at h
      simp only [except_bind_ok] at h
      cases ht : List.mapM f t with
      | error e =>
        rw [ht] at h
        simp at h
      | ok bs =>
        rw [ht] at h
        simp only [except_bind_ok, except_pure_eq, Except.ok.injEq] at h
        subst h
        rcases List.mem_cons.mp hx with rfl | hxt
        · rw [ha] at hy
          simp only [Except.ok.injEq] at hy
          simp [hy]
        · exact List.mem_cons_of_mem b (ih bs ht x hxt y hy)

theorem rev_lookup_unique :
    ∀ (nodes : List (String × Expr)) (acc : List (Expr × String)) (v : Expr) (n : String),
      (∀ p ∈ nodes, p.2 = v → p.1 = n) →
      (dget? acc v = none ∨ dget? acc v = some n) →
      ((∃ p ∈ nodes, p.2 = v) ∨ dget? acc v = some n) →
      dget? (nodes.foldl (fun r p => dins r p.2 p.1) acc) v = some n := by
  intro nodes
  induction nodes with
  | nil =>
    intro acc v n _ _ h3
    rcases h3 with ⟨p, hp, _⟩ | h
    · simp at hp
    · exact h
  | cons p rest ih =>
    intro acc v n h1 h2 h3
    simp only [List.foldl_cons]
    by_cases hpv : p.2 = v
    · have hpn : p.1 = n := h1 p (by simp) hpv
      apply ih
      · intro q hq hqv
        exact h1 q (by simp [hq]) hqv
      · right
        rw [← hpv, dget?_dins_self, hpn]
      · right
        rw [← hpv, dget?_dins_self, hpn]
    · have hne : dget? (dins acc p.2 p.1) v = dget? acc v := dget?_dins_ne acc p.2 v p.1 hpv
      apply ih
      · intro q hq hqv
        exact h1 q (by simp [hq]) hqv
      · rw [hne]
        exact h2
      · rcases h3 with ⟨q, hq, hqv⟩ | h
        · rcases List.mem_cons.mp hq with rfl | hq2
          · exact absurd hqv hpv
          · exact Or.inl ⟨q, hq2, hqv⟩
        · right
          rw [hne]
          exact h

theorem dmem_append {κ β : Type} [DecidableEq κ] (d1 d2 : List (κ × β)) (k : κ) :
    dmem (d1 ++ d2) k = (dmem d1 k || dmem d2 k) := by
  simp [dmem, List.any_append]

theorem dget?_of_mem_nodup {κ β : Type} [DecidableEq κ] :
    ∀ (d : List (κ × β)) (k : κ) (v : β), (d.map Prod.fst).Nodup → (k, v) ∈ d →
      dget? d k = some v := by
  intro d
  induction d with
  | nil => intro k v _ h; simp at h
  | cons p rest ih =>
    intro k v hnd hmem
    simp only [List.map_cons, List.nodup_cons] at hnd
    rcases List.mem_cons.mp hmem with rfl | hmem2
    · simp [dget?]
    · have hk : k ∈ rest.map Prod.fst := List.mem_map.mpr ⟨(k, v), hmem2, rfl⟩
      have hne : p.1 ≠ k := fun h => hnd.1 (h ▸ hk)
      simp only [dget?, if_neg hne]
      exact ih k v hnd.2 hmem2

theorem assemble_fold_char (nodes : List (String × Expr)) (fnames : List String) :
    ∀ (params : List (String × Tensor)) (ins0 res : List (String × Expr)),
      (params.map Prod.fst).Nodup →
      params.foldlM (assemble_step nodes fnames) ins0 = Except.ok res →
      ∃ extra, res = ins0 ++ extra ∧
        extra.map Prod.fst = ((params.filter (fun p =>
          decide (p.1 ∈ fnames) && !(dmem ins0 p.1))).map Prod.fst) ∧
        ∀ q ∈ extra, dget? nodes q.1 = some q.2 := by
  intro params
  induction params with
  | nil =>
    intro ins0 res _ h
    simp only [List.foldlM_nil, except_pure_eq, Except.ok.injEq] at h
    exact ⟨[], by simp [h.symm], by simp, by simp⟩
  | cons p rest ih =>
    intro ins0 res hnd h
    simp only [List.map_cons, List.nodup_cons] at hnd
    rw [List.foldlM_cons] at h
    by_cases hc : p.1 ∈ fnames ∧ dmem ins0 p.1 = false
    · rcases hg : dget? nodes p.1 with _ | e
      · rw [show assemble_step nodes fnames ins0 p = Except.error (ImpErr.keyError p.1) by
            simp only [assemble_step, if_pos hc, hg]] at h
        simp at h
      · rw [show assemble_step nodes fnames ins0 p = Except.ok (dins ins0 p.1 e) by
            simp only [assemble_step, if_pos hc, hg]] at h
        rw [except_bind_ok] at h
        rw [dins_append_of_not_mem ins0 p.1 e hc.2] at h
        rcases ih (ins0 ++ [(p.1, e)]) res hnd.2 h with ⟨extra2, hres, hkeys, hpt⟩
        refine ⟨(p.1, e) :: extra2, by simp [hres], ?_, ?_⟩
        · have hcongr : rest.filter (fun q =>
              decide (q.1 ∈ fnames) && !(dmem (ins0 ++ [(p.1, e)]) q.1)) =
              rest.filter (fun q => decide (q.1 ∈ fnames) && !(dmem ins0 q.1)) := by
            apply List.filter_congr
            intro q hq
            have hqk : q.1 ∈ rest.map Prod.fst := List.mem_map.mpr ⟨q, hq, rfl⟩
            have hne : p.1 ≠ q.1 := fun hh => hnd.1 (hh ▸ hqk)
            rw [dmem_append]
            have : dmem [(p.1, e)] q.1 = false := by
              simp [dmem, hne]
            rw [this, Bool.or_false]
          rw [List.filter_cons, if_pos (by simp [hc.1, hc.2])]
          simp only [List.map_cons, hkeys, hcongr]
        · intro q hq
          rcases List.mem_cons.mp hq with rfl | hq2
          · exact hg
          · exact hpt q hq2
    · rw [show assemble_step nodes fnames ins0 p = Except.ok ins0 by
          simp only [assemble_step, if_neg hc]] at h
      rw [except_bind_ok] at h
      rcases ih ins0 res hnd.2 h with ⟨extra2, hres, hkeys, hpt⟩
      refine ⟨extra2, hres, ?_, hpt⟩
      rw [List.filter_cons, if_neg ?_]
      · exact hkeys
      · simp only [Bool.and_eq_true, decide_eq_true_eq, Bool.not_eq_true']
        exact hc

/-- C2 (amended): what the final assembly (lines 4718-4734) actually
produces.  The residual constant table returned is the whole `_params`
table, not restricted to referenced parameters.  The function's parameter
list is the `_inputs` table's values — every declared graph input,
regardless of reachability — followed by exactly those non-frozen
initializers whose names are free in the result and not already declared
inputs, in constant-table order, each as the variable bound under its own
name. -/
theorem C2_assemble_characterization (st : GState) (outputs : Expr)
    (f : FuncM) (params' : List (String × Tensor)) (ins : List (String × Expr))
    (hnodupP : (st.params.map Prod.fst).Nodup)
    (hnodupN : (st.nodes.map Prod.fst).Nodup)
    (hvars : ∀ n ∈ fvList outputs,
      (n, Expr.var n) ∈ st.nodes ∧ ∀ p ∈ st.nodes, p.2 = Expr.var n → p.1 = n)
    (hok : assemble_func st outputs = Except.ok (f, params', ins)) :
    params' = st.params ∧
    f.params = ins.map (fun p => p.2) ∧ f.body = outputs ∧
    ∃ extra, ins = st.inputs ++ extra ∧
      extra.map Prod.fst = ((st.params.filter (fun p =>
        decide (p.1 ∈ fvList outputs) && !(dmem st.inputs p.1))).map Prod.fst) ∧
      (∀ q ∈ extra, q.2 = Expr.var q.1) := by
  have hlookup : ∀ n ∈ fvList outputs,
      (match dget? (rev_nodes st.nodes) (Expr.var n) with
       | some k => Except.ok k
       | none => Except.error (ImpErr.keyError n)) = Except.ok n := by
    intro n hn
    have h := rev_lookup_unique st.nodes [] (Expr.var n) n
      (fun p hp hv => (hvars n hn).2 p hp hv)
      (Or.inl rfl)
      (Or.inl ⟨(n, Expr.var n), (hvars n hn).1, rfl⟩)
    rw [show rev_nodes st.nodes = st.nodes.foldl (fun r p => dins r p.2 p.1) [] from rfl,
      h]
  have hmapm := exceptMapM_ok
    (fun n => match dget? (rev_nodes st.nodes) (Expr.var n) with
       | some k => Except.ok k
       | none => Except.error (ImpErr.keyError n))
    (fun n => n) (fvList outputs) hlookup
  unfold assemble_func at hok
  rw [hmapm] at hok
  have hid : (fvList outputs).map (fun n => n) = fvList outputs := List.map_id' _
  rw [hid] at hok
  dsimp only at hok
  rcases hfold : st.params.foldlM (assemble_step st.nodes (fvList outputs)) st.inputs with
    e | ins2
  · rw [hfold] at hok
    simp at hok
  · rw [hfold] at hok
    simp only [Except.ok.injEq, Prod.mk.injEq] at hok
    rcases hok with ⟨hf, hparams, hins⟩
    subst hins
    rcases assemble_fold_char st.nodes (fvList outputs) st.params st.inputs ins2
      hnodupP hfold with ⟨extra, hres, hkeys, hpt⟩
    refine ⟨hparams.symm, by rw [← hf], by rw [← hf], extra, hres, hkeys, ?_⟩
    intro q hq
    have hkmem : q.1 ∈ extra.map Prod.fst := List.mem_map.mpr ⟨q, hq, rfl⟩
    rw [hkeys] at hkmem
    rcases List.mem_map.mp hkmem with ⟨r, hr, hr1⟩
    have hcond := List.of_mem_filter hr
    simp only [Bool.and_eq_true, decide_eq_true_eq] at hcond
    have hqfv : q.1 ∈ fvList outputs := hr1 ▸ hcond.1
    have hvn := (hvars q.1 hqfv).1
    have hget := dget?_of_mem_nodup st.nodes q.1 (Expr.var q.1) hnodupN hvn
    have hget2 := hpt q hq
    rw [hget] at hget2
    simp only [Option.some.injEq] at hget2
    exact hget2.symm

/-- Witness for `C2_assemble_characterization` on a scope holding one
declared (dead) input `x` and one non-frozen initializer `w` that is the
result: the parameters come out as `[x, w]` and the residual table is the
whole params table. -/
theorem C2_assemble_characterization_witness :
    ((([("w", Expr.var "w"), ("x", Expr.var "x")] : List (String × Expr)).map
        Prod.fst).Nodup) ∧
    ([("w", [5])] = ([("w", [5])] : List (String × Tensor)) ∧
      [Expr.var "x", Expr.var "w"] =
        ([("x", Expr.var "x"), ("w", Expr.var "w")] : List (String × Expr)).map
          (fun p => p.2) ∧
      Expr.var "w" = Expr.var "w" ∧
      ∃ extra, ([("x", Expr.var "x"), ("w", Expr.var "w")] : List (String × Expr)) =
          [("x", Expr.var "x")] ++ extra ∧
        extra.map Prod.fst = ((([("w", [5])] : List (String × Tensor)).filter (fun p =>
          decide (p.1 ∈ fvList (Expr.var "w")) &&
            !(dmem ([("x", Expr.var "x")] : List (String × Expr)) p.1))).map Prod.fst) ∧
        (∀ q ∈ extra, q.2 = Expr.var q.1)) := by
  refine ⟨by decide, ?_⟩
  have h := C2_assemble_characterization
    ⟨[("w", Expr.var "w"), ("x", Expr.var "x")], [("w", [5])],
      [("x", Expr.var "x")], ["x"], []⟩
    (Expr.var "w")
    ⟨[Expr.var "x", Expr.var "w"], Expr.var "w"⟩
    [("w", [5])]
    [("x", Expr.var "x"), ("w", Expr.var "w")]
    (by decide) (by decide) (by decide) rfl
  exact h

theorem dmem_of_mem {κ β : Type} [DecidableEq κ] {d : List (κ × β)} {k : κ} {v : β}
    (h : (k, v) ∈ d) : dmem d k = true := by
  unfold dmem
  rw [List.any_eq_true]
  exact ⟨(k, v), h, by simp⟩

theorem assemble_fold_append (nodes : List (String × Expr)) (fnames : List String) :
    ∀ (params : List (String × Tensor)) (ins0 res : List (String × Expr)),
      params.foldlM (assemble_step nodes fnames) ins0 = Except.ok res →
      ∃ extra, res = ins0 ++ extra := by
  intro params
  induction params with
  | nil =>
    intro ins0 res h
    simp only [List.foldlM_nil, except_pure_eq, Except.ok.injEq] at h
    exact ⟨[], by simp [h.symm]⟩
  | cons p rest ih =>
    intro ins0 res h
    rw [List.foldlM_cons] at h
    by_cases hc : p.1 ∈ fnames ∧ dmem ins0 p.1 = false
    · rcases hg : dget? nodes p.1 with _ | e
      · rw [show assemble_step nodes fnames ins0 p = Except.error (ImpErr.keyError p.1) by
            simp only [assemble_step, if_pos hc, hg]] at h
        simp at h
      · rw [show assemble_step nodes fnames ins0 p = Except.ok (dins ins0 p.1 e) by
            simp only [assemble_step, if_pos hc, hg]] at h
        rw [except_bind_ok, dins_append_of_not_mem ins0 p.1 e hc.2] at h
        rcases ih _ _ h with ⟨extra2, hres⟩
        exact ⟨(p.1, e) :: extra2, by simp [hres]⟩
    · rw [show assemble_step nodes fnames ins0 p = Except.ok ins0 by
          simp only [assemble_step, if_neg hc]] at h
      rw [except_bind_ok] at h
      exact ih _ _ h

theorem assemble_fold_adds (nodes : List (String × Expr)) (fnames : List String) :
    ∀ (params : List (String × Tensor)) (ins0 res : List (String × Expr))
      (k : String) (v : Expr),
      params.foldlM (assemble_step nodes fnames) ins0 = Except.ok res →
      (∃ t, (k, t) ∈ params) → k ∈ fnames → dmem ins0 k = false →
      dget? nodes k = some v → (k, v) ∈ res := by
  intro params
  induction params with
  | nil =>
    intro ins0 res k v _ hex _ _ _
    rcases hex with ⟨t, ht⟩
    simp at ht
  | cons p rest ih =>
    intro ins0 res k v h hex hf hm hg
    rw [List.foldlM_cons] at h
    by_cases hpk : p.1 = k
    · have hc : p.1 ∈ fnames ∧ dmem ins0 p.1 = false := by rw [hpk]; exact ⟨hf, hm⟩
      rw [show assemble_step nodes fnames ins0 p = Except.ok (dins ins0 p.1 v) by
          simp only [assemble_step, hpk, hg]
          rw [if_pos ⟨hf, hm⟩]] at h
      rw [except_bind_ok, dins_append_of_not_mem ins0 p.1 v (hpk ▸ hm)] at h
      rcases assemble_fold_append nodes fnames rest _ _ h with ⟨extra, hres⟩
      rw [hres, hpk]
      exact List.mem_append.mpr (Or.inl (List.mem_append.mpr (Or.inr (by simp))))
    · have hex2 : ∃ t, (k, t) ∈ rest := by
        rcases hex with ⟨t, ht⟩
        rcases List.mem_cons.mp ht with heq | hmem
        · exact absurd (congrArg Prod.fst heq).symm hpk
        · exact ⟨t, hmem⟩
      by_cases hc : p.1 ∈ fnames ∧ dmem ins0 p.1 = false
      · rcases hg2 : dget? nodes p.1 with _ | e
        · rw [show assemble_step nodes fnames ins0 p = Except.error (ImpErr.keyError p.1) by
              simp only [assemble_step, if_pos hc, hg2]] at h
          simp at h
        · rw [show assemble_step nodes fnames ins0 p = Except.ok (dins ins0 p.1 e) by
              simp only [assemble_step, if_pos hc, hg2]] at h
          rw [except_bind_ok, dins_append_of_not_mem ins0 p.1 e hc.2] at h
          apply ih _ _ k v h hex2 hf _ hg
          rw [dmem_append, hm]
          simp [dmem, hpk]
      · rw [show assemble_step nodes fnames ins0 p = Except.ok ins0 by
            simp only [assemble_step, if_neg hc]] at h
        rw [except_bind_ok] at h
        exact ih _ _ k v h hex2 hf hm hg

/-- C7 (amended): a free variable `n` of the final result that names a
retained (non-frozen) initializer or a declared input does appear as a
parameter of the assembled function.  (The reachability premise
`n ∈ fvList outputs` is what the original claim lacked: free variables
captured only by a dead control-flow body are dropped, per
`C7_dead_body_counterexample`.) -/
theorem C7_free_var_promotion_amended (st : GState) (outputs : Expr)
    (f : FuncM) (params' : List (String × Tensor)) (ins : List (String × Expr))
    (n : String)
    (hfree : n ∈ fvList outputs)
    (hnodupN : (st.nodes.map Prod.fst).Nodup)
    (hvarsn : (n, Expr.var n) ∈ st.nodes ∧ ∀ p ∈ st.nodes, p.2 = Expr.var n → p.1 = n)
    (hp : (∃ t, (n, t) ∈ st.params) ∨ (n, Expr.var n) ∈ st.inputs)
    (hinp : dmem st.inputs n = true → (n, Expr.var n) ∈ st.inputs)
    (hok : assemble_func st outputs = Except.ok (f, params', ins)) :
    Expr.var n ∈ f.params := by
  have hlookupn : (match dget? (rev_nodes st.nodes) (Expr.var n) with
      | some k => Except.ok k
      | none => Except.error (ImpErr.keyError n)) = Except.ok n := by
    have h := rev_lookup_unique st.nodes [] (Expr.var n) n
      (fun p hp2 hv => hvarsn.2 p hp2 hv)
      (Or.inl rfl)
      (Or.inl ⟨(n, Expr.var n), hvarsn.1, rfl⟩)
    rw [show rev_nodes st.nodes = st.nodes.foldl (fun r p => dins r p.2 p.1) [] from rfl,
      h]
  unfold assemble_func at hok
  rcases hmap : (fvList outputs).mapM (fun n => match dget? (rev_nodes st.nodes) (Expr.var n) with
      | some k => Except.ok k
      | none => Except.error (ImpErr.keyError n)) with e | free_names
  · rw [hmap] at hok
    simp at hok
  · rw [hmap] at hok
    dsimp only at hok
    have hnfree : n ∈ free_names := mapM_ok_mem _ _ _ hmap n hfree n hlookupn
    rcases hfold : st.params.foldlM (assemble_step st.nodes free_names) st.inputs with
      e | ins2
    · rw [hfold] at hok
      simp at hok
    · rw [hfold] at hok
      simp only [Except.ok.injEq, Prod.mk.injEq] at hok
      rcases hok with ⟨hf, _, hins⟩
      subst hins
      rw [← hf]
      by_cases hmem : dmem st.inputs n = true
      · have hni := hinp hmem
        rcases assemble_fold_append st.nodes free_names st.params _ _ hfold with ⟨extra, hres⟩
        have : (n, Expr.var n) ∈ ins2 := by
          rw [hres]
          exact List.mem_append.mpr (Or.inl hni)
        exact List.mem_map.mpr ⟨(n, Expr.var n), this, rfl⟩
      · have hmem2 : dmem st.inputs n = false := by simpa using hmem
        rcases hp with ⟨t, ht⟩ | hni
        · have hget : dget? st.nodes n = some (Expr.var n) :=
            dget?_of_mem_nodup st.nodes n (Expr.var n) hnodupN hvarsn.1
          have := assemble_fold_adds st.nodes free_names st.params st.inputs ins2
            n (Expr.var n) hfold ⟨t, ht⟩ hnfree hmem2 hget
          exact List.mem_map.mpr ⟨(n, Expr.var n), this, rfl⟩
        · exact absurd (dmem_of_mem hni) hmem

/-- Witness for `C7_free_var_promotion_amended`: in a scope where the
graph output is the `If` expression itself (reachable), the initializer
`w` captured inside the branches is promoted into the parameter list. -/
theorem C7_free_var_promotion_amended_witness :
    Expr.var "w" ∈ [Expr.var "c", Expr.var "w"] :=
  C7_free_var_promotion_amended
    ⟨[("w", Expr.var "w"), ("c", Expr.var "c"),
      ("o", Expr.ifE (Expr.var "c") (Expr.call "copy" [Expr.var "w"])
        (Expr.call "copy" [Expr.var "w"]))],
      [("w", [7])], [("c", Expr.var "c")], ["c"], []⟩
    (Expr.ifE (Expr.var "c") (Expr.call "copy" [Expr.var "w"])
      (Expr.call "copy" [Expr.var "w"]))
    ⟨[Expr.var "c", Expr.var "w"],
      Expr.ifE (Expr.var "c") (Expr.call "copy" [Expr.var "w"])
        (Expr.call "copy" [Expr.var "w"])⟩
    [("w", [7])]
    [("c", Expr.var "c"), ("w", Expr.var "w")]
    "w" (by decide) (by decide) (by decide)
    (Or.inl ⟨[7], by decide⟩) (by decide) rfl

theorem dmem_dupdate_left {κ β : Type} [DecidableEq κ] :
    ∀ (d2 d1 : List (κ × β)) (k : κ), dmem d1 k = true →
      dmem (dupdate d1 d2) k = true := by
  intro d2
  induction d2 with
  | nil => intro d1 k h; exact h
  | cons p rest ih =>
    intro d1 k h
    unfold dupdate
    rw [List.foldl_cons]
    exact ih _ k (by rw [dmem_dins, h, Bool.true_or])

theorem dmem_dupdate_right {κ β : Type} [DecidableEq κ] :
    ∀ (d2 d1 : List (κ × β)) (k : κ), dmem d2 k = true →
      dmem (dupdate d1 d2) k = true := by
  intro d2
  induction d2 with
  | nil => intro d1 k h; simp [dmem] at h
  | cons p rest ih =>
    intro d1 k h
    unfold dupdate
    rw [List.foldl_cons]
    by_cases hp : p.1 = k
    · apply dmem_dupdate_left
      rw [dmem_dins, hp]
      simp
    · apply ih
      simp only [dmem, List.any_cons, Bool.or_eq_true, decide_eq_true_eq] at h
      rcases h with h | h
      · exact absurd h hp
      · simpa [dmem] using h

theorem fvfold_preserve_dmem :
    ∀ (l : List String) (nds : List (String × Expr)) (k : String),
      dmem nds k = true →
      dmem (l.foldl (fun nds m => dins nds m (Expr.var m)) nds) k = true := by
  intro l
  induction l with
  | nil => intro nds k h; exact h
  | cons m rest ih =>
    intro nds k h
    rw [List.foldl_cons]
    exact ih _ k (by rw [dmem_dins, h, Bool.true_or])

theorem fvfold_other_keys :
    ∀ (l : List String) (nds : List (String × Expr)) (k : String),
      (∀ x ∈ l, x ≠ k) →
      dget? (l.foldl (fun nds m => dins nds m (Expr.var m)) nds) k = dget? nds k := by
  intro l
  induction l with
  | nil => intro nds k _; rfl
  | cons m rest ih =>
    intro nds k h
    rw [List.foldl_cons, ih _ k (fun x hx => h x (by simp [hx]))]
    exact dget?_dins_ne nds m k (Expr.var m) (h m (by simp))

theorem fvfold_set :
    ∀ (l : List String) (nds : List (String × Expr)) (n : String),
      l.Nodup → n ∈ l →
      dget? (l.foldl (fun nds m => dins nds m (Expr.var m)) nds) n =
        some (Expr.var n) := by
  intro l
  induction l with
  | nil => intro nds n _ h; simp at h
  | cons m rest ih =>
    intro nds n hnd hn
    rw [List.nodup_cons] at hnd
    rw [List.foldl_cons]
    rcases List.mem_cons.mp hn with rfl | hn2
    · rw [fvfold_other_keys rest _ n (fun x hx hxn => hnd.1 (hxn ▸ hx))]
      exact dget?_dins_self nds n (Expr.var n)
    · exact ih _ n hnd.2 hn2

theorem fvList_nodup (e : Expr) : (fvList e).Nodup := by
  unfold fvList
  have haux : ∀ (xs : List String) (acc : List String), acc.Nodup →
      (xs.foldl (fun acc n => if n ∈ acc then acc else acc ++ [n]) acc).Nodup := by
    intro xs
    induction xs with
    | nil => intro acc h; exact h
    | cons x rest ih =>
      intro acc h
      rw [List.foldl_cons]
      by_cases hx : x ∈ acc
      · rw [if_pos hx]
        exact ih acc h
      · rw [if_neg hx]
        apply ih
        rw [List.nodup_append]
        refine ⟨h, List.nodup_singleton x, ?_⟩
        intro a ha hax2
        rw [List.mem_singleton] at hax2
        exact hx (hax2 ▸ ha)
  exact haux _ [] (by simp)

/-- C6 (amended): after a control-flow branch's conversion returns, the
enclosing scope's tables are updated with the *entire* child binding table
and constant table (in addition to the promoted free variables of the
branch result) — so bindings created inside the body become visible to
later nodes and sibling subgraphs of the enclosing graph. -/
theorem C6_merge_branch_amended (st : GState) (childParams : List (String × Tensor))
    (childNodes : List (String × Expr)) (childExpr : Expr) :
    (∀ k, dmem childNodes k = true →
      dmem (merge_branch st childParams childNodes childExpr).nodes k = true) ∧
    (∀ k, dmem st.nodes k = true →
      dmem (merge_branch st childParams childNodes childExpr).nodes k = true) ∧
    (∀ k, dmem childParams k = true →
      dmem (merge_branch st childParams childNodes childExpr).params k = true) ∧
    (∀ n ∈ fvList childExpr,
      dget? (merge_branch st childParams childNodes childExpr).nodes n =
        some (Expr.var n)) := by
  refine ⟨?_, ?_, ?_, ?_⟩
  · intro k h
    exact fvfold_preserve_dmem _ _ k (dmem_dupdate_right childNodes st.nodes k h)
  · intro k h
    exact fvfold_preserve_dmem _ _ k (dmem_dupdate_left childNodes st.nodes k h)
  · intro k h
    exact dmem_dupdate_right childParams st.params k h
  · intro n hn
    exact fvfold_set _ _ n (fvList_nodup childExpr) hn

/-- Witness for `C6_merge_branch_amended`: a branch-internal binding `t`,
the parent binding `c`, the branch constant `p`, and the branch free
variable `c` are all present in the merged scope. -/
theorem C6_merge_branch_amended_witness :
    dmem (merge_branch ⟨[("c", Expr.var "c")], [], [], [], []⟩ [("p", [1])]
        [("c", Expr.var "c"), ("t", Expr.call "copy" [Expr.var "c"])]
        (Expr.call "copy" [Expr.var "c"])).nodes "t" = true ∧
      dmem (merge_branch ⟨[("c", Expr.var "c")], [], [], [], []⟩ [("p", [1])]
        [("c", Expr.var "c"), ("t", Expr.call "copy" [Expr.var "c"])]
        (Expr.call "copy" [Expr.var "c"])).nodes "c" = true ∧
      dmem (merge_branch ⟨[("c", Expr.var "c")], [], [], [], []⟩ [("p", [1])]
        [("c", Expr.var "c"), ("t", Expr.call "copy" [Expr.var "c"])]
        (Expr.call "copy" [Expr.var "c"])).params "p" = true ∧
      dget? (merge_branch ⟨[("c", Expr.var "c")], [], [], [], []⟩ [("p", [1])]
        [("c", Expr.var "c"), ("t", Expr.call "copy" [Expr.var "c"])]
        (Expr.call "copy" [Expr.var "c"])).nodes "c" = some (Expr.var "c") := by
  have h := C6_merge_branch_amended ⟨[("c", Expr.var "c")], [], [], [], []⟩ [("p", [1])]
    [("c", Expr.var "c"), ("t", Expr.call "copy" [Expr.var "c"])]
    (Expr.call "copy" [Expr.var "c"])
  exact ⟨h.1 "t" (by decide), h.2.1 "c" (by decide), h.2.2.1 "p" (by decide),
    h.2.2.2 "c" (by decide)⟩

theorem getD_set_ne {α : Type} :
    ∀ (l : List α) (i p : Nat) (a d : α), i ≠ p →
      (l.set i a).getD p d = l.getD p d := by
  intro l
  induction l with
  | nil => intro i p a d _; simp
  | cons x t ih =>
    intro i p a d h
    cases i with
    | zero =>
      cases p with
      | zero => exact absurd rfl h
      | succ q => simp [List.getD_cons_succ]
    | succ i2 =>
      cases p with
      | zero => simp [List.getD_cons_zero]
      | succ q =>
        simp only [List.set_cons_succ, List.getD_cons_succ]
        exact ih i2 q a d (fun hh => h (by rw [hh]))

theorem countP_set_true :
    ∀ (l : List Bool) (i : Nat), i < l.length → l.getD i true = false →
      (l.set i true).countP (fun b => b) = l.countP (fun b => b) + 1 := by
  intro l
  induction l with
  | nil => intro i h _; simp at h
  | cons x t ih =>
    intro i hi hf
    cases i with
    | zero =>
      simp only [List.getD_cons_zero] at hf
      subst hf
      simp [List.countP_cons]
    | succ i2 =>
      simp only [List.getD_cons_succ] at hf
      simp only [List.length_cons, Nat.succ_lt_succ_iff] at hi
      simp only [List.set_cons_succ, List.countP_cons]
      rw [ih i2 hi hf]
      omega

theorem valid_loop_char :
    ∀ (names : List String) (i : Nat) (valid : List Bool),
      (∀ j, (hj : j < names.length) → names.get ⟨j, hj⟩ ≠ "" → i + j < valid.length) →
      (∀ p, p < valid.length → i ≤ p → valid.getD p true = false) →
      ∃ v, valid_outputs_loop i valid names = Except.ok v ∧
        v.length = valid.length ∧
        v.countP (fun b => b) = valid.countP (fun b => b) +
          names.countP (fun s => s ≠ "") ∧
        (∀ j (hj : j < names.length), i + j < valid.length → names.get ⟨j, hj⟩ = "" →
          v.getD (i + j) true = false) ∧
        (∀ p, p < valid.length → p < i → v.getD p true = valid.getD p true) := by
  intro names
  induction names with
  | nil =>
    intro i valid _ _
    refine ⟨valid, rfl, rfl, by simp, ?_, ?_⟩
    · intro j hj
      simp at hj
    · intro p _ _
      rfl
  | cons name rest ih =>
    intro i valid hyp1 hyp2
    by_cases hname : name ≠ ""
    · have hilen : i < valid.length := by
        have := hyp1 0 (by simp) (by simpa using hname)
        simpa using this
      have hvi : valid.getD i true = false := hyp2 i hilen (le_refl i)
      have hyp1r : ∀ j (hj : j < rest.length), rest.get ⟨j, hj⟩ ≠ "" →
          (i + 1) + j < (valid.set i true).length := by
        intro j hj hne
        rw [List.length_set]
        have := hyp1 (j + 1) (by simpa using Nat.succ_lt_succ hj) (by simpa using hne)
        omega
      have hyp2r : ∀ p, p < (valid.set i true).length → i + 1 ≤ p →
          (valid.set i true).getD p true = false := by
        intro p hp hip
        rw [List.length_set] at hp
        rw [getD_set_ne valid i p true true (by omega)]
        exact hyp2 p hp (by omega)
      rcases ih (i + 1) (valid.set i true) hyp1r hyp2r with
        ⟨v, hok, hlen, hcount, hempty, hpre⟩
      rw [List.length_set] at hlen
      refine ⟨v, ?_, hlen, ?_, ?_, ?_⟩
      · simp only [valid_outputs_loop, if_pos hname, if_pos hilen]
        exact hok
      · have hset := countP_set_true valid i hilen hvi
        have hcons : (name :: rest).countP (fun s => decide (s ≠ "")) =
            rest.countP (fun s => decide (s ≠ "")) + 1 := by
          rw [List.countP_cons]
          have hd : (decide (name ≠ "")) = true := by simpa using hname
          rw [hd]
          simp
        rw [hcount, hset, hcons]
        omega
      · intro j hj hjlen hempty2
        cases j with
        | zero =>
          simp only [List.get] at hempty2
          exact absurd hempty2 hname
        | succ j2 =>
          have hj2 : j2 < rest.length := by simpa using hj
          have h1 : (i + 1) + j2 < (valid.set i true).length := by
            rw [List.length_set]
            omega
          have := hempty j2 hj2 h1 (by simpa using hempty2)
          have heq : (i + 1) + j2 = i + (j2 + 1) := by omega
          rw [heq] at this
          exact this
      · intro p hp hpi
        have h1 : p < (valid.set i true).length := by rw [List.length_set]; exact hp
        rw [hpre p h1 (by omega), getD_set_ne valid i p true true (by omega)]
    · have hname2 : name = "" := by simpa using hname
      have hyp1r : ∀ j (hj : j < rest.length), rest.get ⟨j, hj⟩ ≠ "" →
          (i + 1) + j < valid.length := by
        intro j hj hne
        have := hyp1 (j + 1) (by simpa using Nat.succ_lt_succ hj) (by simpa using hne)
        omega
      have hyp2r : ∀ p, p < valid.length → i + 1 ≤ p → valid.getD p true = false :=
        fun p hp hip => hyp2 p hp (by omega)
      rcases ih (i + 1) valid hyp1r hyp2r with ⟨v, hok, hlen, hcount, hempty, hpre⟩
      refine ⟨v, ?_, hlen, ?_, ?_, ?_⟩
      · simp only [valid_outputs_loop, hname2]
        simpa using hok
      · rw [hcount, List.countP_cons]
        simp [hname2]
      · intro j hj hjlen hempty2
        cases j with
        | zero =>
          simp only [Nat.add_zero]
          by_cases hiv : i < valid.length
          · rw [hpre i hiv (by omega)]
            exact hyp2 i hiv (le_refl i)
          · omega
        | succ j2 =>
          have hj2 : j2 < rest.length := by simpa using hj
          have h1 : (i + 1) + j2 < valid.length := by omega
          have := hempty j2 hj2 h1 (by simpa using hempty2)
          have heq : (i + 1) + j2 = i + (j2 + 1) := by omega
          rw [heq] at this
          exact this
      · intro p hp hpi
        exact hpre p hp (by omega)

theorem filterMap_enumFrom_length (f : Nat → Expr) :
    ∀ (l : List Bool) (s : Nat),
      ((List.enumFrom s l).filterMap (fun p =>
        if p.2 then some (f p.1) else none)).length = l.countP (fun b => b) := by
  intro l
  induction l with
  | nil => intro s; rfl
  | cons b t ih =>
    intro s
    rw [List.enumFrom_cons, List.filterMap_cons, List.countP_cons]
    cases b with
    | false => simpa using ih (s + 1)
    | true => simpa using ih (s + 1)

theorem select_getitem_length (e : Expr) (valid : List Bool) :
    (select_getitem e valid).length = valid.countP (fun b => b) :=
  filterMap_enumFrom_length (fun i => Expr.tupleGetItem e i) valid 0

theorem select_fields_length (fields : List Expr) (valid : List Bool) :
    (select_fields fields valid).length = valid.countP (fun b => b) :=
  filterMap_enumFrom_length (fun i => fields.getD i (Expr.tuple [])) valid 0

theorem countP_replicate_false (n : Nat) :
    (List.replicate n false).countP (fun b => b) = 0 := by
  rw [List.countP_eq_zero]
  intro a ha
  rw [List.eq_of_mem_replicate ha]
  simp

/-- C3 counterexample: with 3 produced outputs and declared names
`["x", ""]`, the claim demands an `ArityMismatch` error (dropping only the
empty-named position 1 leaves 2 produced values against 1 non-empty name),
but reconciliation *succeeds*, silently dropping both the empty-named
value and the value beyond the declared list.  Conversely, with 1 produced
output and declared names `["y", ""]`, the claim's rule (drop the
empty-named position; the remaining 1 value matches the 1 non-empty name)
expects success, but the code errors. -/
theorem C3_reconcile_counterexample :
    reconcile ⟨Expr.tuple [Expr.var "a", Expr.var "b", Expr.var "c"], 3⟩ ["x", ""] =
        Except.ok (⟨Expr.var "a", 1⟩, ["x"]) ∧
      3 - ((["x", ""].filter (fun s => s = "")).length) ≠
        ((["x", ""].filter (fun s => s ≠ "")).length) ∧
      reconcile ⟨Expr.var "a", 1⟩ ["y", ""] =
        Except.error (ImpErr.assertionError "Number of output mismatch") ∧
      1 = (["y", ""].filter (fun s => s ≠ "")).length := by
  refine ⟨by decide, by decide, by decide, by decide⟩

/-- C3 (amended): for a node producing `res.num > 1` outputs whose
declared name list has every non-empty name at a position below
`res.num`, and at least one empty name at a position below `res.num`,
reconciliation always *succeeds* (the claimed `ArityMismatch` cannot
fire): produced values at empty-named positions and at positions at or
beyond the declared list are dropped together, the surviving declared
names are exactly the non-empty ones in their original relative order,
and the reconciled output count equals the number of non-empty names. -/
theorem C3_reconcile_amended (res : OpRes) (node_output : List String)
    (hnum : 1 < res.num)
    (hnoidx : ∀ j (hj : j < node_output.length),
      node_output.get ⟨j, hj⟩ ≠ "" → j < res.num)
    (hsome : ∃ j, ∃ hj : j < node_output.length,
      j < res.num ∧ node_output.get ⟨j, hj⟩ = "") :
    ∃ res2, reconcile res node_output =
        Except.ok (res2, node_output.filter (fun s => s ≠ "")) ∧
      res2.num = (node_output.filter (fun s => s ≠ "")).length := by
  have hrep : ∀ p, p < (List.replicate res.num false).length → 0 ≤ p →
      (List.replicate res.num false).getD p true = false := by
    intro p hp _
    rw [List.length_replicate] at hp
    rw [List.getD_eq_getElem _ _ (by rw [List.length_replicate]; exact hp)]
    simp
  have hyp1 : ∀ j (hj : j < node_output.length), node_output.get ⟨j, hj⟩ ≠ "" →
      0 + j < (List.replicate res.num false).length := by
    intro j hj hne
    rw [List.length_replicate]
    have := hnoidx j hj hne
    omega
  rcases valid_loop_char node_output 0 (List.replicate res.num false) hyp1 hrep with
    ⟨v, hok, hlen, hcount, hempty, _⟩
  rw [List.length_replicate] at hlen
  rw [countP_replicate_false] at hcount
  rw [Nat.zero_add] at hcount
  -- the `all` check fails: position j* is false
  rcases hsome with ⟨j, hj, hjnum, hjempty⟩
  have hfalse : v.getD (0 + j) true = false := by
    apply hempty j hj ?_ hjempty
    rw [List.length_replicate]
    omega
  rw [Nat.zero_add] at hfalse
  have hjv : j < v.length := by omega
  have hnotall : ¬ (v.all (fun b => b) = true) := by
    intro hall
    have hmem : v.getD j true ∈ v := by
      rw [List.getD_eq_getElem _ _ hjv]
      exact List.getElem_mem hjv
    have := List.all_eq_true.mp hall _ hmem
    rw [hfalse] at this
    simp at this
  -- the selection length equals the count of non-empty names
  have houts : (match res.expr with
      | Expr.tuple fields => select_fields fields v
      | _ => select_getitem res.expr v).length =
      node_output.countP (fun s => s ≠ "") := by
    have hc : v.countP (fun b => b) = node_output.countP (fun s => decide (s ≠ "")) :=
      hcount
    cases res.expr with
    | var n => rw [select_getitem_length]; exact hc
    | const t => rw [select_getitem_length]; exact hc
    | call o args => rw [select_getitem_length]; exact hc
    | tuple fields => rw [select_fields_length]; exact hc
    | tupleGetItem e2 i2 => rw [select_getitem_length]; exact hc
    | ifE c2 t2 e2 => rw [select_getitem_length]; exact hc
  have hfiltlen : (node_output.filter (fun s => s ≠ "")).length =
      node_output.countP (fun s => s ≠ "") := (List.countP_eq_length_filter _ _).symm
  unfold reconcile
  rw [if_pos hnum, hok]
  dsimp only
  rw [if_neg hnotall]
  set outs := (match res.expr with
    | Expr.tuple fields => select_fields fields v
    | _ => select_getitem res.expr v) with houtsdef
  by_cases h1 : outs.length = 1
  · refine ⟨⟨outs.getD 0 (Expr.tuple []), 1⟩, ?_, ?_⟩
    · rw [if_pos h1]
      dsimp only
      rw [if_pos (by rw [hfiltlen, ← houts, h1])]
    · dsimp only
      rw [hfiltlen, ← houts, h1]
  · by_cases h2 : outs.length ≠ res.num
    · refine ⟨⟨Expr.tuple outs, outs.length⟩, ?_, ?_⟩
      · rw [if_neg h1, if_pos h2]
        dsimp only
        rw [if_pos (by rw [hfiltlen, ← houts])]
      · dsimp only
        rw [hfiltlen, ← houts]
    · refine ⟨⟨res.expr, outs.length⟩, ?_, ?_⟩
      · rw [if_neg h1, if_neg h2]
        dsimp only
        rw [if_pos (by rw [hfiltlen, ← houts])]
      · dsimp only
        rw [hfiltlen, ← houts]

/-- Witness for `C3_reconcile_amended`: 3 produced outputs with declared
names `["x", "", "z"]` reconcile to the two survivors named `x`, `z`. -/
theorem C3_reconcile_amended_witness :
    ∃ res2, reconcile ⟨Expr.tuple [Expr.var "a", Expr.var "b", Expr.var "c"], 3⟩
        ["x", "", "z"] =
        Except.ok (res2, (["x", "", "z"].filter (fun s => s ≠ ""))) ∧
      res2.num = ((["x", "", "z"]).filter (fun s => s ≠ "")).length :=
  C3_reconcile_amended ⟨Expr.tuple [Expr.var "a", Expr.var "b", Expr.var "c"], 3⟩
    ["x", "", "z"] (by decide)
    (by
      intro j hj hne
      have hj3 : j < 3 := by simpa using hj
      exact hj3)
    ⟨1, by decide, by decide, rfl⟩
